import Mathlib

/-!
Verification of the spell-sweep repository (BK-tree spell checker with a
Bloom filter) against its natural-language specification.

The embedding models Rust strings as lists of Unicode scalar values
(`List Nat`).  Rust's `str::len` is the UTF-8 byte length while
`str::chars().nth` walks characters, and the embedding keeps that
distinction (`utf8Len` vs `List.get?`).  Machine integers are `Nat` with an
explicit `% 256` where the source casts to `u8`.  Fallible operations
return `Except String _` (or `Option`): a `.error "panic: ..."` models a
Rust panic (out-of-bounds index, `expect`), other `.error`s model the
source's typed `Err` values.  The source's unbounded `loop`s are modelled
with a fuel argument of `tree.length + 1`, which the well-formedness
lemmas below show is never exhausted on trees built by `add` (descent
follows child indices that strictly increase).
-/

/-- Strings are lists of Unicode scalar values (Rust `char as usize`). -/
abbrev Str : Type := List Nat

/-- UTF-8 encoded length of one Unicode scalar value. -/
def utf8CharLen (c : Nat) : Nat :=
  if c < 0x80 then 1 else if c < 0x800 then 2 else if c < 0x10000 then 3 else 4

/-- Rust `str::len`: the UTF-8 byte length of a string. -/
def utf8Len (s : Str) : Nat := (s.map utf8CharLen).sum

/-- Functional model of a mutable `Vec<Vec<usize>>` cell update
(`dp[r][c] = v`).  All `dp` writes and reads in the source are provably
within the `(m+2) x (n+2)` allocation, so the table is modelled as a plain
function. -/
def upd2 (f : Nat → Nat → Nat) (r c v : Nat) : Nat → Nat → Nat :=
  fun x y => if x = r ∧ y = c then v else f x y

/-- Rust indexing that panics when out of bounds. -/
def orPanic {α : Type} (o : Option α) (msg : String) : Except String α :=
  match o with
  | some x => .ok x
  | none => .error msg

deriving instance DecidableEq for Except

/-- The row-boundary loop `for i in 0..=m { dp[i+1][1] = i; dp[i+1][0] = infinity }`
(src/bk_tree.rs lines 55-58), given as the state after the first `cnt`
iterations (loop indices `0..cnt`). -/
def dlInitRows (infinity : Nat) (dp0 : Nat → Nat → Nat) : Nat → Nat → Nat → Nat
  | 0 => dp0
  | i + 1 => upd2 (upd2 (dlInitRows infinity dp0 i) (i + 1) 1 i) (i + 1) 0 infinity

/-- The column-boundary loop `for j in 0..=n { dp[1][j+1] = j; dp[0][j+1] = infinity }`
(src/bk_tree.rs lines 60-63), after the first `cnt` iterations. -/
def dlInitCols (infinity : Nat) (dp0 : Nat → Nat → Nat) : Nat → Nat → Nat → Nat
  | 0 => dp0
  | j + 1 => upd2 (upd2 (dlInitCols infinity dp0 j) 1 (j + 1) j) 0 (j + 1) infinity

/-- The dp-table initialization of `get_damerau_levenshtein_distance`
(src/bk_tree.rs lines 51-63): `dp[0][0] = infinity`, then the two boundary
loops, with `infinity = m + n`. -/
def dlInit (m n : Nat) : Nat → Nat → Nat :=
  let infinity := m + n
  dlInitCols infinity (dlInitRows infinity (upd2 (fun _ _ => 0) 0 0 infinity) (m + 1)) (n + 1)

/-- Largest row index `i0` with `1 ≤ i0 < i` and `a[i0-1] = c`, else `0`:
the value `da[c]` holds while the source processes row `i`. -/
def lastRow (a : Str) (c : Nat) : Nat → Nat
  | 0 => 0
  | i + 1 => if 1 ≤ i ∧ a.get? (i - 1) = some c then i else lastRow a c i

/-- Largest column index `j0` with `1 ≤ j0 < j` and `b[j0-1] = a[i-1]`,
else `0`: the value `db` holds when the source reaches column `j` of
row `i`. -/
def lastCol (a b : Str) (i : Nat) : Nat → Nat
  | 0 => 0
  | j + 1 =>
    if 1 ≤ j ∧ (a.get? (i - 1)).isSome ∧ b.get? (j - 1) = a.get? (i - 1)
    then j else lastCol a b i j

/-- The `k = da[b[j-1]]` value read at loop position `(ii, jj)`. -/
def kOf (a b : Str) (ii jj : Nat) : Nat :=
  (b.get? (jj - 1)).elim 0 (fun c => lastRow a c ii)

/-- The substitution cost at loop position `(ii, jj)`: `0` iff characters
`a[ii-1]` and `b[jj-1]` both exist and are equal. -/
def costOf (a b : Str) (ii jj : Nat) : Nat :=
  if (a.get? (ii - 1)).isSome ∧ b.get? (jj - 1) = a.get? (ii - 1) then 0 else 1

/-- Intended value of dp-table cell `(i, j)` (table indices, i.e.
`dp[i][j]` of the source): boundary sentinels and base rows as produced by
`dlInit`, and for `i, j ≥ 2` the recurrence of source lines 78-87 with
`k`, `l` as maintained by the `da`/`db` bookkeeping. -/
def dpFun (a b : Str) (i j : Nat) : Nat :=
  if h0 : i = 0 ∨ j = 0 then utf8Len a + utf8Len b
  else if h1 : i = 1 then j - 1
  else if h2 : j = 1 then i - 1
  else
    let ii := i - 1
    let jj := j - 1
    let cost := costOf a b ii jj
    let k := kOf a b ii jj
    let l := lastCol a b ii jj
    min (min (dpFun a b (i - 1) (j - 1) + cost) (dpFun a b i (j - 1) + 1))
        (min (dpFun a b (i - 1) j + 1)
             (dpFun a b k l + (ii - k - 1) + 1 + (jj - l - 1)))
termination_by i + j
decreasing_by
  · omega
  · omega
  · omega
  · have hlr : ∀ c i2, lastRow a c i2 ≤ i2 - 1 := by
      intro c i2
      induction i2 with
      | zero => simp [lastRow]
      | succ i2 ih =>
        simp only [lastRow]
        split
        · omega
        · omega
    have hk : kOf a b (i - 1) (j - 1) ≤ i - 1 - 1 := by
      unfold kOf
      cases b.get? (j - 1 - 1) with
      | none => simp [Option.elim]
      | some c => simpa [Option.elim] using hlr c (i - 1)
    have hl : lastCol a b (i - 1) (j - 1) ≤ j - 1 - 1 := by
      generalize j - 1 = j2
      induction j2 with
      | zero => simp [lastCol]
      | succ j2 ih =>
        simp only [lastCol]
        split
        · omega
        · omega
    omega

/-- Inner `for j in 1..=n` loop of the distance function (source lines
69-88), processing `steps` remaining columns starting at column `j`;
the state is the dp table and `db`. -/
def dlRowAux (a b : Str) (i : Nat) (da : List Nat) :
    Nat → Nat → (Nat → Nat → Nat) → Nat → Except String ((Nat → Nat → Nat) × Nat)
  | 0, _, dp, db => .ok (dp, db)
  | steps + 1, j, dp, db => do
    let bj ← orPanic (b.get? (j - 1)) "Couldn't get the (j - 1)th character of b"
    let k ← orPanic (da.get? bj) "panic: index out of bounds"
    let l := db
    let aChar ← orPanic (a.get? (i - 1)) "Couldn't get the (i - 1)th character of a"
    let bChar ← orPanic (b.get? (j - 1)) "Couldn't get the (j - 1)th character of b"
    let cost : Nat := if aChar = bChar then 0 else 1
    let db' := if cost = 0 then j else db
    let dp' := upd2 dp (i + 1) (j + 1)
      (min (min (dp i j + cost) (dp (i + 1) j + 1))
           (min (dp i (j + 1) + 1) (dp k l + (i - k - 1) + 1 + (j - l - 1))))
    dlRowAux a b i da steps (j + 1) dp' db'

/-- Outer `for i in 1..=m` loop (source lines 67-90), processing `steps`
remaining rows starting at row `i`; the state is the dp table and `da`.
The write `da[a[i-1]] = i` is bounds-checked as in Rust. -/
def dlOuterAux (a b : Str) (n : Nat) :
    Nat → Nat → (Nat → Nat → Nat) → List Nat → Except String ((Nat → Nat → Nat) × List Nat)
  | 0, _, dp, da => .ok (dp, da)
  | steps + 1, i, dp, da => do
    let r ← dlRowAux a b i da n 1 dp 0
    let aChar ← orPanic (a.get? (i - 1)) "Couldn't get the (i - 1)th character of a"
    if aChar < da.length then
      dlOuterAux a b n steps (i + 1) r.1 (da.set aChar i)
    else
      .error "panic: index out of bounds"

/-- `BKTree::get_damerau_levenshtein_distance` (source lines 47-93), with
the alphabet length passed explicitly.  The final `as u8` cast is the
`% 256`. -/
def dlDistance (alphabetLength : Nat) (a b : Str) : Except String Nat := do
  let m := utf8Len a
  let n := utf8Len b
  let dp := dlInit m n
  let da : List Nat := List.replicate alphabetLength 0
  let r ← dlOuterAux a b n m 1 dp da
  .ok (r.1 (m + 1) (n + 1) % 256)

/-- Source `Node` (word plus fixed-width child array of `Option` indices). -/
structure Node where
  word : Option Str
  next : List (Option Nat)
deriving DecidableEq

/-- `Node::new` (source lines 17-24). -/
def Node.new (word : Option Str) (maxWordLength : Nat) : Node :=
  { word := word, next := List.replicate (maxWordLength + 1) none }

/-- Source `BKTree`. -/
structure BKTree where
  max_word_length : Nat
  alphabet_length : Nat
  tree : List Node
  size : Nat
deriving DecidableEq

/-- `BKTree::new` (source lines 38-45). -/
def BKTree.new (maxWordLength alphabetLength maxWords : Nat) : BKTree :=
  { max_word_length := maxWordLength
    alphabet_length := alphabetLength
    tree := List.replicate maxWords (Node.new none maxWordLength)
    size := 0 }

/-- Method form of the distance function. -/
def BKTree.get_damerau_levenshtein_distance (t : BKTree) (a b : Str) : Except String Nat :=
  dlDistance t.alphabet_length a b

/-- Loop body of `BKTree::add` (source lines 95-123).  `fuel` models the
source's unbounded `loop`. -/
def addLoop (t : BKTree) (w : Str) : Nat → Nat → Except String BKTree
  | _, 0 => .error "loop bound exhausted"
  | current, fuel + 1 => do
    let node ← orPanic (t.tree.get? current) "panic: index out of bounds"
    let currentWord := node.word.getD []
    let d ← t.get_damerau_levenshtein_distance currentWord w
    if d = 0 then
      .ok t
    else do
      let slot ← orPanic (node.next.get? d) "panic: index out of bounds"
      match slot with
      | some n => addLoop t w n fuel
      | none => do
        let t1 :=
          if node.word.isSome then
            { t with tree := t.tree.set current { node with next := node.next.set d (some t.size) } }
          else t
        let node2 ← orPanic (t1.tree.get? t1.size) "panic: index out of bounds"
        let t2 := { t1 with tree := t1.tree.set t1.size { node2 with word := some w } }
        .ok { t2 with size := t2.size + 1 }

/-- `BKTree::add`. -/
def BKTree.add (t : BKTree) (w : Str) : Except String BKTree :=
  addLoop t w 0 (t.tree.length + 1)

/-- Loop body of `BKTree::does_contain` (source lines 125-147).  The
source's guarded `is_none` arm followed by the re-match is a single match
here. -/
def containsLoop (t : BKTree) (w : Str) : Nat → Nat → Except String Bool
  | _, 0 => .error "loop bound exhausted"
  | current, fuel + 1 => do
    let node ← orPanic (t.tree.get? current) "panic: index out of bounds"
    let currentWord := node.word.getD []
    let d ← t.get_damerau_levenshtein_distance currentWord w
    if d = 0 then
      .ok true
    else do
      let slot ← orPanic (node.next.get? d) "panic: index out of bounds"
      match slot with
      | some n => containsLoop t w n fuel
      | none => .ok false

/-- `BKTree::does_contain`. -/
def BKTree.does_contain (t : BKTree) (w : Str) : Except String Bool :=
  containsLoop t w 0 (t.tree.length + 1)

/-- The child-pushing loop of `get_similar_words` (source lines 169-174):
indices `i` in `start..=endd` are read from the child array (Rust panics
when `i` is outside the array) and the `Some` children are collected in
ascending order. -/
def collectPushes (next : List (Option Nat)) : Nat → Nat → Except String (List Nat)
  | _, 0 => .ok []
  | i, count + 1 => do
    let slot ← orPanic (next.get? i) "panic: index out of bounds"
    let rest ← collectPushes next (i + 1) count
    match slot with
    | some n => .ok (n :: rest)
    | none => .ok rest

/-- Loop of `BKTree::get_similar_words` (source lines 153-175).  The
explicit stack has its top at the head; children pushed in ascending key
order therefore end up reversed on top, as with `Vec::push`/`Vec::pop`.
`u8` arithmetic wraps (`% 256`). -/
def gswLoop (t : BKTree) (w : Str) (tol : Nat) :
    List Nat → List Str → Nat → Except String (List Str)
  | _, _, 0 => .error "loop bound exhausted"
  | [], acc, _ + 1 => .ok acc
  | current :: stack, acc, fuel + 1 => do
    let node ← orPanic (t.tree.get? current) "panic: index out of bounds"
    let currentWord := node.word.getD []
    let d ← t.get_damerau_levenshtein_distance w currentWord
    let acc' := if d ≤ tol then acc ++ [currentWord] else acc
    let start := if d > tol then d - tol else 1
    let endd := (d + tol) % 256
    let pushes ← collectPushes node.next start (endd + 1 - start)
    gswLoop t w tol (pushes.reverse ++ stack) acc' fuel

/-- `BKTree::get_similar_words` (source lines 149-178). -/
def BKTree.get_similar_words (t : BKTree) (w : Str) (tol : Nat) : Except String (List Str) :=
  gswLoop t w tol [0] [] (t.tree.length + 1)

/-- `impl From<&Dictionary> for BKTree` (source lines 190-200): a tree
preallocated to the vocabulary size, filled by `add`.  The source
`expect`s each `add`; the `Except` result records whether any would have
panicked. -/
def buildTree (maxWordLength alphabetLength : Nat) (words : List Str) : Except String BKTree :=
  words.foldlM BKTree.add (BKTree.new maxWordLength alphabetLength words.length)

/-- Source `BloomFilter`.  `fp_prob` is an `f32`; only its identity
matters for the claims below, so it is modelled by its 32-bit pattern. -/
structure BloomFilter where
  fp_prob : Nat
  size : Nat
  hash_count : Nat
  bitarray : List Nat
deriving DecidableEq

/-- Probe loop of `BloomFilter::insert` (source lines 51-59), with the
std-library `DefaultHasher` behind `utils::hash_with_seed` passed as a
parameter.  Rust `digest % self.size` panics when `size = 0`, and the
`bitarray[digest]` write is bounds-checked. -/
def insertProbes (hash : Str → Nat → Nat) (target : Str) (size : Nat) :
    Nat → Nat → List Nat → Option (List Nat)
  | _, 0, arr => some arr
  | i, count + 1, arr =>
    if size = 0 then none
    else
      let digest := hash target i % size
      if digest < arr.length then
        insertProbes hash target size (i + 1) count (arr.set digest 1)
      else none

/-- `BloomFilter::insert`. -/
def BloomFilter.insert (hash : Str → Nat → Nat) (bf : BloomFilter) (target : Str) :
    Option BloomFilter :=
  (insertProbes hash target bf.size 0 bf.hash_count bf.bitarray).map
    (fun arr => { bf with bitarray := arr })

/-- Probe loop of `BloomFilter::lookup` (source lines 61-71);
`bitarray.get(digest).unwrap()` panics when the index is out of range. -/
def lookupProbes (hash : Str → Nat → Nat) (target : Str) (size : Nat) :
    Nat → Nat → List Nat → Option Bool
  | _, 0, _ => some true
  | i, count + 1, arr =>
    if size = 0 then none
    else
      let digest := hash target i % size
      match arr.get? digest with
      | none => none
      | some v => if v = 0 then some false else lookupProbes hash target size (i + 1) count arr

/-- `BloomFilter::lookup`. -/
def BloomFilter.lookup (hash : Str → Nat → Nat) (bf : BloomFilter) (target : Str) :
    Option Bool :=
  lookupProbes hash target bf.size 0 bf.hash_count bf.bitarray

/-- A sequence of `insert`s (as in `impl From<Vec<String>> for BloomFilter`,
source lines 102-110). -/
def insertMany (hash : Str → Nat → Nat) (bf : BloomFilter) (ws : List Str) :
    Option BloomFilter :=
  ws.foldlM (BloomFilter.insert hash) bf

/-- All characters are ASCII (one UTF-8 byte, so `str::len` equals the
character count) and lie inside the configured alphabet. -/
def AsciiIn (alen : Nat) (s : Str) : Prop := ∀ c ∈ s, c < 128 ∧ c < alen

instance (alen : Nat) (s : Str) : Decidable (AsciiIn alen s) := by
  unfold AsciiIn
  infer_instance

/-! ### Persistence codec (claims C3, C4) -/

/-- Modelled from the spec: the rkyv binary codec is an external crate, so
the blob format is modelled as a deterministic length-prefixed encoding of
every data-model field; the spec's contract is only
`decode(encode(x)) == x` field-for-field with typed failure on invalid
blobs.  A `Nat` is one blob element. -/
def encNat (x : Nat) : List Nat := [x]

/-- Modelled from the spec: decoder for `encNat`; fails on a truncated
blob. -/
def decNat : List Nat → Option (Nat × List Nat)
  | [] => none
  | x :: rest => some (x, rest)

/-- Modelled from the spec: length-prefixed encoding of a raw `Nat` list
(a string's scalar values, or the filter's byte array). -/
def encStr (s : List Nat) : List Nat := s.length :: s

/-- Modelled from the spec: decoder for `encStr`; fails when fewer
elements remain than the declared length. -/
def decStr : List Nat → Option (List Nat × List Nat)
  | [] => none
  | n :: rest => if n ≤ rest.length then some (rest.take n, rest.drop n) else none

/-- Modelled from the spec: tagged encoding of an `Option Nat` child
reference. -/
def encOptNat : Option Nat → List Nat
  | none => [0]
  | some x => [1, x]

/-- Modelled from the spec: decoder for `encOptNat`; fails on an invalid
tag or truncation. -/
def decOptNat : List Nat → Option (Option Nat × List Nat)
  | 0 :: rest => some (none, rest)
  | 1 :: x :: rest => some (some x, rest)
  | _ => none

/-- Modelled from the spec: tagged encoding of a node's optional word. -/
def encOptStr : Option (List Nat) → List Nat
  | none => [0]
  | some s => 1 :: encStr s

/-- Modelled from the spec: decoder for `encOptStr`. -/
def decOptStr : List Nat → Option (Option (List Nat) × List Nat)
  | 0 :: rest => some (none, rest)
  | 1 :: rest => (decStr rest).map (fun p => (some p.1, p.2))
  | _ => none

/-- Modelled from the spec: length-prefixed encoding of a list of encoded
values. -/
def encList {α : Type} (enc : α → List Nat) (l : List α) : List Nat :=
  l.length :: (l.map enc).join

/-- Modelled from the spec: element-count recursion for `decList`. -/
def decListAux {α : Type} (dec : List Nat → Option (α × List Nat)) :
    Nat → List Nat → Option (List α × List Nat)
  | 0, rest => some ([], rest)
  | n + 1, rest =>
    match dec rest with
    | none => none
    | some (x, rest') =>
      match decListAux dec n rest' with
      | none => none
      | some (xs, rest'') => some (x :: xs, rest'')

/-- Modelled from the spec: decoder for `encList`. -/
def decList {α : Type} (dec : List Nat → Option (α × List Nat)) :
    List Nat → Option (List α × List Nat)
  | [] => none
  | n :: rest => decListAux dec n rest

/-- Modelled from the spec: a `Node` blob is the word followed by the
child array. -/
def encNode (nd : Node) : List Nat :=
  encOptStr nd.word ++ encList encOptNat nd.next

/-- Modelled from the spec: decoder for `encNode`. -/
def decNode (bytes : List Nat) : Option (Node × List Nat) :=
  match decOptStr bytes with
  | none => none
  | some (w, rest) =>
    match decList decOptNat rest with
    | none => none
    | some (nx, rest') => some ({ word := w, next := nx }, rest')

/-- Modelled from the spec: the persisted Metric Index blob carries
`max_word_length`, `alphabet_length`, the complete preallocated node array
(including unused slots) and `size` (rkyv's `to_bytes` on `BKTree`,
src/bk_tree.rs line 181). -/
def encodeBKTree (t : BKTree) : List Nat :=
  encNat t.max_word_length ++ encNat t.alphabet_length ++
    encList encNode t.tree ++ encNat t.size

/-- Modelled from the spec: decoder for the Metric Index blob
(rkyv's checked `from_bytes`, src/bk_tree.rs line 209); a missing,
truncated or trailing-garbage blob fails with `none`. -/
def decodeBKTree (bytes : List Nat) : Option BKTree :=
  match decNat bytes with
  | none => none
  | some (mwl, r1) =>
    match decNat r1 with
    | none => none
    | some (alen, r2) =>
      match decList decNode r2 with
      | none => none
      | some (tr, r3) =>
        match decNat r3 with
        | none => none
        | some (sz, r4) =>
          match r4 with
          | [] => some { max_word_length := mwl, alphabet_length := alen, tree := tr, size := sz }
          | _ => none

/-- Modelled from the spec: the persisted filter blob carries `fp_prob`
(by its 32-bit pattern), `size`, `hash_count` and the bit array
(`BloomFilter::serialize`, src/bloom_filter.rs lines 73-75). -/
def encodeBloomFilter (bf : BloomFilter) : List Nat :=
  encNat bf.fp_prob ++ encNat bf.size ++ encNat bf.hash_count ++ encStr bf.bitarray

/-- Modelled from the spec: decoder for the filter blob
(`BloomFilter::deserialize`, src/bloom_filter.rs lines 77-79). -/
def decodeBloomFilter (bytes : List Nat) : Option BloomFilter :=
  match decNat bytes with
  | none => none
  | some (fp, r1) =>
    match decNat r1 with
    | none => none
    | some (sz, r2) =>
      match decNat r2 with
      | none => none
      | some (hc, r3) =>
        match decStr r3 with
        | none => none
        | some (arr, r4) =>
          match r4 with
          | [] => some { fp_prob := fp, size := sz, hash_count := hc, bitarray := arr }
          | _ => none

/-- Typed failure of the load path. -/
inductive LoadError where
  | ioError : LoadError
  | decodeError : LoadError
deriving DecidableEq

/-- `BloomFilter::from_file` (src/bloom_filter.rs lines 91-99): a missing
file surfaces the `File::open` error and an invalid blob surfaces the
decode error, both as typed `Err` values propagated with `?`. -/
def bloomFromFile (contents : Option (List Nat)) : Except LoadError BloomFilter :=
  match contents with
  | none => .error .ioError
  | some bytes =>
    match decodeBloomFilter bytes with
    | none => .error .decodeError
    | some bf => .ok bf

/-- `impl From<File> for BKTree` (src/bk_tree.rs lines 202-212): the rkyv
decode result is consumed with `.expect("Failed to deserialize BKTree")`,
which aborts the process on an invalid blob; `none` models that panic.
The signature cannot return an error to the caller. -/
def bkTreeFromFile (bytes : List Nat) : Option BKTree :=
  decodeBKTree bytes

/-! ### BK-tree well-formedness (claims C1, C2, C8, C10) -/

/-- The word of the node at slot `i`, when the slot exists and holds one. -/
def treeWord (t : BKTree) (i : Nat) : Option Str :=
  (t.tree.get? i).bind (fun nd => nd.word)

/-- The child reference keyed `d` at slot `i`, when present. -/
def treeLink (t : BKTree) (i d : Nat) : Option Nat :=
  (t.tree.get? i).bind (fun nd => (nd.next.get? d).bind id)

/-- A word the distance function handles exactly: ASCII characters inside
the alphabet, length within the tree's capacity and within the `u8`
distance range. -/
def WordOk (L alen : Nat) (w : Str) : Prop :=
  AsciiIn alen w ∧ w.length ≤ L ∧ w.length ≤ 255

/-- A vocabulary word: additionally nonempty (the empty string collides
with the absent-root placeholder). -/
def GoodWord (L alen : Nat) (w : Str) : Prop := WordOk L alen w ∧ w ≠ []

instance (L alen : Nat) (w : Str) : Decidable (WordOk L alen w) := by
  unfold WordOk
  infer_instance

instance (L alen : Nat) (w : Str) : Decidable (GoodWord L alen w) := by
  unfold GoodWord
  infer_instance

/-- Well-formedness of one node of a tree with `size` allocated slots. -/
def WFNode (L alen size i : Nat) (nd : Node) : Prop :=
  nd.next.length = L + 1 ∧
  (nd.word.isSome ↔ i < size) ∧
  (∀ w, nd.word = some w → GoodWord L alen w) ∧
  (∀ d n, nd.next.get? d = some (some n) → i < n ∧ n < size)

/-- Well-formedness of a tree as maintained by `BKTree::new` and `add`:
slots `0..size` hold good words, child links point to later allocated
slots, child arrays have width `max_word_length + 1`. -/
def WF (t : BKTree) : Prop :=
  t.size ≤ t.tree.length ∧
  ∀ i nd, t.tree.get? i = some nd →
    WFNode t.max_word_length t.alphabet_length t.size i nd

/-- Monotone growth of a tree: `add` never removes or changes existing
words or links. -/
def Extends (t t' : BKTree) : Prop :=
  t'.max_word_length = t.max_word_length ∧
  t'.alphabet_length = t.alphabet_length ∧
  t'.tree.length = t.tree.length ∧
  t.size ≤ t'.size ∧
  (∀ i w, treeWord t i = some w → treeWord t' i = some w) ∧
  (∀ i d n, treeLink t i d = some n → treeLink t' i d = some n)

/-- A descent path from slot `c` that ends at a node whose word is at
distance 0 from `w`: the path `add` leaves behind and `does_contain`
retraces. -/
inductive Finds (alen : Nat) (t : BKTree) (w : Str) : Nat → Prop where
  | found : ∀ c u, treeWord t c = some u → dlDistance alen u w = .ok 0 → Finds alen t w c
  | step : ∀ c u d n, treeWord t c = some u → dlDistance alen u w = .ok d → d ≠ 0 →
      treeLink t c d = some n → Finds alen t w n → Finds alen t w c

/-- The tree produced by `add` when it links a fresh slot: the final node
of the descent gets the child link `d ↦ size`, and slot `size` receives
the word. -/
def addFill (t : BKTree) (w : Str) (current d : Nat) (nd ndS : Node) : BKTree :=
  { max_word_length := t.max_word_length
    alphabet_length := t.alphabet_length
    tree := (t.tree.set current { word := nd.word, next := nd.next.set d (some t.size) }).set
      t.size { word := some w, next := ndS.next }
    size := t.size + 1 }

/-- The tree produced by `add` on the still-absent root: the word is
written into slot `size` (= the root) with no edge created. -/
def addFresh (t : BKTree) (w : Str) (ndS : Node) : BKTree :=
  { max_word_length := t.max_word_length
    alphabet_length := t.alphabet_length
    tree := t.tree.set t.size { word := some w, next := ndS.next }
    size := t.size + 1 }

/-! ### Characterization of the dp-table initialization -/

theorem lastRow_le (a : Str) (c i : Nat) : lastRow a c i ≤ i - 1 := by
  induction i with
  | zero => simp [lastRow]
  | succ i ih =>
    simp only [lastRow]
    split
    · omega
    · omega

theorem lastCol_le (a b : Str) (i j : Nat) : lastCol a b i j ≤ j - 1 := by
  induction j with
  | zero => simp [lastCol]
  | succ j ih =>
    simp only [lastCol]
    split
    · omega
    · omega

theorem kOf_le (a b : Str) (ii jj : Nat) : kOf a b ii jj ≤ ii - 1 := by
  unfold kOf
  cases b.get? (jj - 1) with
  | none => simp [Option.elim]
  | some c => simpa [Option.elim] using lastRow_le a c ii


theorem upd2_same (f : Nat → Nat → Nat) (r c v : Nat) : upd2 f r c v r c = v := by
  simp [upd2]

theorem upd2_other (f : Nat → Nat → Nat) (r c v x y : Nat) (h : ¬(x = r ∧ y = c)) :
    upd2 f r c v x y = f x y := by
  simp [upd2, h]

theorem utf8Len_ascii (s : Str) (h : ∀ c ∈ s, c < 128) : utf8Len s = s.length := by
  induction s with
  | nil => rfl
  | cons c t ih =>
    have hc : c < 128 := h c (List.mem_cons_self c t)
    have ht : ∀ x ∈ t, x < 128 := fun x hx => h x (List.mem_cons_of_mem c hx)
    simp only [utf8Len, List.map_cons, List.sum_cons, List.length_cons]
    rw [show utf8CharLen c = 1 by simp [utf8CharLen]; omega]
    have := ih ht
    simp only [utf8Len] at this
    omega

theorem dlInitRows_spec (infinity : Nat) (dp0 : Nat → Nat → Nat) (cnt r c : Nat) :
    dlInitRows infinity dp0 cnt r c =
      if 1 ≤ r ∧ r ≤ cnt ∧ c = 1 then r - 1
      else if 1 ≤ r ∧ r ≤ cnt ∧ c = 0 then infinity
      else dp0 r c := by
  induction cnt with
  | zero =>
    simp only [dlInitRows]
    split_ifs <;> omega
  | succ cnt ih =>
    simp only [dlInitRows, upd2]
    rw [ih]
    split_ifs <;> first | rfl | omega

theorem dlInitCols_spec (infinity : Nat) (dp0 : Nat → Nat → Nat) (cnt r c : Nat) :
    dlInitCols infinity dp0 cnt r c =
      if r = 1 ∧ 1 ≤ c ∧ c ≤ cnt then c - 1
      else if r = 0 ∧ 1 ≤ c ∧ c ≤ cnt then infinity
      else dp0 r c := by
  induction cnt with
  | zero =>
    simp only [dlInitCols]
    split_ifs <;> omega
  | succ cnt ih =>
    simp only [dlInitCols, upd2]
    rw [ih]
    split_ifs <;> first | rfl | omega

theorem dlInit_spec (m n r c : Nat) (hr : r ≤ m + 1) (hc : c ≤ n + 1) :
    dlInit m n r c =
      if c = 0 ∨ r = 0 then m + n
      else if c = 1 then r - 1
      else if r = 1 then c - 1
      else 0 := by
  simp only [dlInit]
  rw [dlInitCols_spec, dlInitRows_spec]
  simp only [upd2]
  split_ifs <;> omega

/-! ### Equation lemmas for `dpFun` -/

theorem dpFun_boundary (a b : Str) (i j : Nat) (h : i = 0 ∨ j = 0) :
    dpFun a b i j = utf8Len a + utf8Len b := by
  rw [dpFun, dif_pos h]

theorem dpFun_one_left (a b : Str) (j : Nat) (hj : 1 ≤ j) :
    dpFun a b 1 j = j - 1 := by
  rw [dpFun, dif_neg (by omega), dif_pos rfl]

theorem dpFun_one_right (a b : Str) (i : Nat) (hi : 2 ≤ i) :
    dpFun a b i 1 = i - 1 := by
  rw [dpFun, dif_neg (by omega), dif_neg (by omega), dif_pos rfl]

theorem dpFun_rec (a b : Str) (i j : Nat) (hi : 2 ≤ i) (hj : 2 ≤ j) :
    dpFun a b i j =
      min (min (dpFun a b (i - 1) (j - 1) + costOf a b (i - 1) (j - 1))
               (dpFun a b i (j - 1) + 1))
          (min (dpFun a b (i - 1) j + 1)
               (dpFun a b (kOf a b (i - 1) (j - 1)) (lastCol a b (i - 1) (j - 1))
                 + ((i - 1) - kOf a b (i - 1) (j - 1) - 1) + 1
                 + ((j - 1) - lastCol a b (i - 1) (j - 1) - 1))) := by
  rw [dpFun, dif_neg (by omega), dif_neg (by omega), dif_neg (by omega)]

/-! ### Bridge: the imperative distance loops compute `dpFun` -/

theorem ok_bind {α β : Type} (a : α) (f : α → Except String β) :
    (Except.ok a : Except String α) >>= f = f a := rfl

theorem lastCol_one (a b : Str) (i : Nat) : lastCol a b i 1 = 0 := by
  simp [lastCol]

theorem lastRow_one (a : Str) (c : Nat) : lastRow a c 1 = 0 := by
  simp [lastRow]


theorem dlRowAux_spec (a b : Str) (alen : Nat)
    (ha : AsciiIn alen a) (hb : AsciiIn alen b)
    (i : Nat) (hi1 : 1 ≤ i) (him : i ≤ a.length)
    (da : List Nat)
    (hda : ∀ c, c < alen → da.get? c = some (lastRow a c i)) :
    ∀ steps j dp db,
      1 ≤ j → steps + j = b.length + 1 →
      (∀ r c, c ≤ b.length + 1 → r ≤ a.length + 1 →
        (r ≤ i ∨ (r = i + 1 ∧ c < j + 1) ∨ c ≤ 1) → dp r c = dpFun a b r c) →
      db = lastCol a b i j →
      ∃ dp', dlRowAux a b i da steps j dp db = .ok (dp', lastCol a b i (b.length + 1)) ∧
        ∀ r c, c ≤ b.length + 1 → r ≤ a.length + 1 →
          (r ≤ i + 1 ∨ c ≤ 1) → dp' r c = dpFun a b r c := by
  intro steps
  induction steps with
  | zero =>
    intro j dp db hj hsum hdp hdb
    have hj' : j = b.length + 1 := by omega
    subst hj'
    subst hdb
    refine ⟨dp, by simp only [dlRowAux], ?_⟩
    intro r c hc hr hcl
    exact hdp r c hc hr (by omega)
  | succ steps ih =>
    intro j dp db hj hsum hdp hdb
    subst hdb
    have hjn : j ≤ b.length := by omega
    have hjb : j - 1 < b.length := by omega
    have hia : i - 1 < a.length := by omega
    have hbj : b.get? (j - 1) = some (b.get ⟨j - 1, hjb⟩) := List.get?_eq_get hjb
    have hai : a.get? (i - 1) = some (a.get ⟨i - 1, hia⟩) := List.get?_eq_get hia
    set bj := b.get ⟨j - 1, hjb⟩ with hbj_def
    set aChar := a.get ⟨i - 1, hia⟩ with hai_def
    have hbj_alen : bj < alen := (hb bj (List.get?_mem hbj)).2
    have hk := hda bj hbj_alen
    have hkof : kOf a b i j = lastRow a bj i := by
      show (b.get? (j - 1)).elim 0 (fun c => lastRow a c i) = lastRow a bj i
      rw [hbj]
      rfl
    have hkle : lastRow a bj i ≤ i - 1 := lastRow_le a bj i
    have hlle : lastCol a b i j ≤ j - 1 := lastCol_le a b i j
    have hcost : (if aChar = bj then (0 : Nat) else 1) = costOf a b i j := by
      rw [costOf, hai, hbj]
      by_cases h : aChar = bj
      · simp [h]
      · have h' : ¬(some bj = some aChar) := fun hc => h (Option.some.inj hc).symm
        simp [h, h']
    have e1 : dp i j = dpFun a b i j := hdp i j (by omega) (by omega) (by omega)
    have e2 : dp (i + 1) j = dpFun a b (i + 1) j := hdp (i + 1) j (by omega) (by omega) (by omega)
    have e3 : dp i (j + 1) = dpFun a b i (j + 1) := hdp i (j + 1) (by omega) (by omega) (by omega)
    have e4 : dp (lastRow a bj i) (lastCol a b i j) =
        dpFun a b (lastRow a bj i) (lastCol a b i j) :=
      hdp (lastRow a bj i) (lastCol a b i j) (by omega) (by omega) (by omega)
    have hcell :
        (min (min (dp i j + if aChar = bj then (0 : Nat) else 1) (dp (i + 1) j + 1))
             (min (dp i (j + 1) + 1)
                  (dp (lastRow a bj i) (lastCol a b i j) + (i - lastRow a bj i - 1) + 1
                    + (j - lastCol a b i j - 1)))) = dpFun a b (i + 1) (j + 1) := by
      rw [e1, e2, e3, e4, hcost, dpFun_rec a b (i + 1) (j + 1) (by omega) (by omega)]
      simp only [Nat.add_sub_cancel]
      rw [hkof]
    simp only [dlRowAux, hbj, hk, hai, orPanic, ok_bind]
    apply ih (j + 1) _ _ (by omega) (by omega)
    · intro r c hc hr hcl
      by_cases hrc : r = i + 1 ∧ c = j + 1
      · rw [hrc.1, hrc.2, upd2_same, hcell]
      · rw [upd2_other _ _ _ _ _ _ hrc]
        exact hdp r c hc hr (by omega)
    · show (if (if aChar = bj then (0 : Nat) else 1) = 0 then j else lastCol a b i j) =
        lastCol a b i (j + 1)
      have hunf : lastCol a b i (j + 1) =
          if 1 ≤ j ∧ (a.get? (i - 1)).isSome ∧ b.get? (j - 1) = a.get? (i - 1)
          then j else lastCol a b i j := rfl
      rw [hunf, hai, hbj]
      by_cases h : aChar = bj
      · simp [h, hj]
      · have h' : ¬(some bj = some aChar) := fun hc => h (Option.some.inj hc).symm
        simp [h, h']

theorem dlOuterAux_spec (a b : Str) (alen : Nat)
    (ha : AsciiIn alen a) (hb : AsciiIn alen b) :
    ∀ steps i dp da,
      1 ≤ i → steps + i = a.length + 1 →
      da.length = alen →
      (∀ c, c < alen → da.get? c = some (lastRow a c i)) →
      (∀ r c, c ≤ b.length + 1 → r ≤ a.length + 1 →
        (r ≤ i ∨ c ≤ 1) → dp r c = dpFun a b r c) →
      ∃ dp' da', dlOuterAux a b b.length steps i dp da = .ok (dp', da') ∧
        ∀ r c, c ≤ b.length + 1 → r ≤ a.length + 1 → dp' r c = dpFun a b r c := by
  intro steps
  induction steps with
  | zero =>
    intro i dp da hi hsum hdal hda hdp
    refine ⟨dp, da, by simp only [dlOuterAux], ?_⟩
    intro r c hc hr
    exact hdp r c hc hr (by omega)
  | succ steps ih =>
    intro i dp da hi hsum hdal hda hdp
    have him : i ≤ a.length := by omega
    obtain ⟨dp', hrow, hdp'⟩ := dlRowAux_spec a b alen ha hb i hi him da hda
      b.length 1 dp 0 (by omega) (by omega)
      (by
        intro r c hc hr hcl
        exact hdp r c hc hr (by omega))
      (lastCol_one a b i).symm
    have hia : i - 1 < a.length := by omega
    have hai : a.get? (i - 1) = some (a.get ⟨i - 1, hia⟩) := List.get?_eq_get hia
    set aChar := a.get ⟨i - 1, hia⟩ with hai_def
    have haa : aChar < alen := (ha aChar (List.get?_mem hai)).2
    have hlt : aChar < da.length := by omega
    simp only [dlOuterAux, hrow, hai, orPanic, ok_bind, if_pos hlt]
    apply ih (i + 1) dp' (da.set aChar i) (by omega) (by omega) (by simp [hdal])
    · intro c hc
      by_cases hca : c = aChar
      · subst hca
        rw [List.get?_set_eq_of_lt _ hlt]
        have hlr : lastRow a aChar (i + 1) = i := by
          show (if 1 ≤ i ∧ a.get? (i - 1) = some aChar then i else lastRow a aChar i) = i
          rw [if_pos ⟨hi, hai⟩]
        rw [hlr]
      · rw [List.get?_set_ne _ _ (fun hc2 => hca hc2.symm)]
        have : lastRow a c (i + 1) = lastRow a c i := by
          show (if 1 ≤ i ∧ a.get? (i - 1) = some c then i else lastRow a c i) = _
          rw [if_neg]
          intro hcond
          rw [hai] at hcond
          exact hca (Option.some.inj hcond.2).symm
        rw [this]
        exact hda c hc
    · intro r c hc hr hcl
      exact hdp' r c hc hr (by omega)

/-- The bridge: on ASCII in-alphabet strings the imperative distance
function returns the `dpFun` value of the bottom-right dp cell, cast to
`u8`. -/
theorem dlDistance_spec (alen : Nat) (a b : Str)
    (ha : AsciiIn alen a) (hb : AsciiIn alen b) :
    dlDistance alen a b = .ok (dpFun a b (a.length + 1) (b.length + 1) % 256) := by
  have hla : utf8Len a = a.length := utf8Len_ascii a (fun c hc => (ha c hc).1)
  have hlb : utf8Len b = b.length := utf8Len_ascii b (fun c hc => (hb c hc).1)
  obtain ⟨dp', da', hrun, hdp'⟩ := dlOuterAux_spec a b alen ha hb
    a.length 1 (dlInit a.length b.length) (List.replicate alen 0)
    (by omega) (by omega) (by simp)
    (by
      intro c hc
      rw [lastRow_one]
      simp [List.get?_eq_get, List.length_replicate, hc, List.getElem_replicate])
    (by
      intro r c hc hr hcl
      rw [dlInit_spec a.length b.length r c (by omega) (by omega)]
      rcases hcl with hr1 | hc1
      · interval_cases r
        · rw [if_pos (Or.inr rfl), dpFun_boundary a b 0 c (Or.inl rfl), hla, hlb]
        · by_cases hc0 : c = 0
          · rw [if_pos (Or.inl hc0), hc0, dpFun_boundary a b 1 0 (Or.inr rfl), hla, hlb]
          · by_cases hc1 : c = 1
            · rw [hc1, if_neg (by omega), if_pos rfl, dpFun_one_left a b 1 (by omega)]
            · rw [if_neg (by omega), if_neg (by omega), if_pos rfl,
                dpFun_one_left a b c (by omega)]
      · interval_cases c
        · rw [if_pos (Or.inl rfl), dpFun_boundary a b r 0 (Or.inr rfl), hla, hlb]
        · by_cases hr0 : r = 0
          · rw [if_pos (Or.inr hr0), hr0, dpFun_boundary a b 0 1 (Or.inl rfl), hla, hlb]
          · by_cases hr1 : r = 1
            · rw [if_neg (by omega), if_pos rfl, hr1, dpFun_one_left a b 1 (by omega)]
            · rw [if_neg (by omega), if_pos rfl, dpFun_one_right a b r (by omega)])
  simp only [dlDistance, hla, hlb, hrun, ok_bind]
  rw [hdp' (a.length + 1) (b.length + 1) (by omega) (by omega)]

/-! ### Metric-style properties of `dpFun` -/

theorem costOf_le_one (a b : Str) (ii jj : Nat) : costOf a b ii jj ≤ 1 := by
  rw [costOf]
  split <;> omega

theorem costOf_symm (a b : Str) (ii jj : Nat) : costOf a b ii jj = costOf b a jj ii := by
  rw [costOf, costOf]
  by_cases h : (a.get? (ii - 1)).isSome ∧ b.get? (jj - 1) = a.get? (ii - 1)
  · rw [if_pos h, if_pos ⟨by rw [h.2]; exact h.1, h.2.symm⟩]
  · rw [if_neg h, if_neg]
    intro h'
    exact h ⟨by rw [h'.2]; exact h'.1, h'.2.symm⟩

theorem lastCol_of_none (b a : Str) (jj : Nat) (h : b.get? (jj - 1) = none) :
    ∀ ii, lastCol b a jj ii = 0 := by
  intro ii
  induction ii with
  | zero => rfl
  | succ n ihn =>
    show (if 1 ≤ n ∧ (b.get? (jj - 1)).isSome ∧ a.get? (n - 1) = b.get? (jj - 1)
          then n else lastCol b a jj n) = 0
    rw [h]
    simp [ihn]

theorem lastCol_of_some (b a : Str) (jj ch : Nat) (h : b.get? (jj - 1) = some ch) :
    ∀ ii, lastCol b a jj ii = lastRow a ch ii := by
  intro ii
  induction ii with
  | zero => rfl
  | succ n ihn =>
    show (if 1 ≤ n ∧ (b.get? (jj - 1)).isSome ∧ a.get? (n - 1) = b.get? (jj - 1)
          then n else lastCol b a jj n) = lastRow a ch (n + 1)
    rw [h]
    show _ = if 1 ≤ n ∧ a.get? (n - 1) = some ch then n else lastRow a ch n
    by_cases hc : 1 ≤ n ∧ a.get? (n - 1) = some ch
    · rw [if_pos ⟨hc.1, by simp, hc.2⟩, if_pos hc]
    · rw [if_neg, if_neg hc, ihn]
      intro h'
      exact hc ⟨h'.1, h'.2.2⟩

theorem kOf_swap (a b : Str) (ii jj : Nat) : kOf a b ii jj = lastCol b a jj ii := by
  cases hbv : b.get? (jj - 1) with
  | none =>
    rw [show kOf a b ii jj = 0 by rw [kOf, hbv]; rfl, lastCol_of_none b a jj hbv ii]
  | some ch =>
    rw [show kOf a b ii jj = lastRow a ch ii by rw [kOf, hbv]; rfl,
        lastCol_of_some b a jj ch hbv ii]

theorem dpFun_symm (a b : Str) : ∀ s i j, i + j ≤ s → dpFun a b i j = dpFun b a j i := by
  intro s
  induction s with
  | zero =>
    intro i j h
    have hi : i = 0 := by omega
    have hj : j = 0 := by omega
    subst hi; subst hj
    rw [dpFun_boundary a b 0 0 (Or.inl rfl), dpFun_boundary b a 0 0 (Or.inl rfl)]
    omega
  | succ s ih =>
    intro i j h
    by_cases hi0 : i = 0
    · subst hi0
      rw [dpFun_boundary a b 0 j (Or.inl rfl), dpFun_boundary b a j 0 (Or.inr rfl)]
      omega
    by_cases hj0 : j = 0
    · subst hj0
      rw [dpFun_boundary a b i 0 (Or.inr rfl), dpFun_boundary b a 0 i (Or.inl rfl)]
      omega
    by_cases hi1 : i = 1
    · subst hi1
      rw [dpFun_one_left a b j (by omega)]
      by_cases hj1 : j = 1
      · rw [hj1, dpFun_one_left b a 1 (by omega)]
      · rw [dpFun_one_right b a j (by omega)]
    by_cases hj1 : j = 1
    · subst hj1
      rw [dpFun_one_right a b i (by omega), dpFun_one_left b a i (by omega)]
    -- main case: i, j ≥ 2
    rw [dpFun_rec a b i j (by omega) (by omega), dpFun_rec b a j i (by omega) (by omega)]
    have e1 : dpFun a b (i - 1) (j - 1) = dpFun b a (j - 1) (i - 1) :=
      ih (i - 1) (j - 1) (by omega)
    have e2 : dpFun a b i (j - 1) = dpFun b a (j - 1) i := ih i (j - 1) (by omega)
    have e3 : dpFun a b (i - 1) j = dpFun b a j (i - 1) := ih (i - 1) j (by omega)
    have hk := kOf_le a b (i - 1) (j - 1)
    have hl := lastCol_le a b (i - 1) (j - 1)
    have e4 : dpFun a b (kOf a b (i - 1) (j - 1)) (lastCol a b (i - 1) (j - 1)) =
        dpFun b a (lastCol a b (i - 1) (j - 1)) (kOf a b (i - 1) (j - 1)) :=
      ih _ _ (by omega)
    have ek : kOf b a (j - 1) (i - 1) = lastCol a b (i - 1) (j - 1) :=
      kOf_swap b a (j - 1) (i - 1)
    have el : lastCol b a (j - 1) (i - 1) = kOf a b (i - 1) (j - 1) :=
      (kOf_swap a b (i - 1) (j - 1)).symm
    have ec : costOf b a (j - 1) (i - 1) = costOf a b (i - 1) (j - 1) :=
      (costOf_symm a b (i - 1) (j - 1)).symm
    rw [ek, el, ec, ← e1, ← e2, ← e3, ← e4]
    omega

theorem dpFun_le_max (a b : Str) : ∀ s i j, i + j ≤ s → dpFun a b (i + 1) (j + 1) ≤ max i j := by
  intro s
  induction s with
  | zero =>
    intro i j h
    have hi : i = 0 := by omega
    have hj : j = 0 := by omega
    subst hi; subst hj
    rw [dpFun_one_left a b 1 (by omega)]
    omega
  | succ s ih =>
    intro i j h
    by_cases hi0 : i = 0
    · subst hi0
      rw [dpFun_one_left a b (j + 1) (by omega)]
      omega
    by_cases hj0 : j = 0
    · subst hj0
      rw [dpFun_one_right a b (i + 1) (by omega)]
      omega
    have hrec := dpFun_rec a b (i + 1) (j + 1) (by omega) (by omega)
    simp only [Nat.add_sub_cancel] at hrec
    rw [hrec]
    have h1 : dpFun a b i j ≤ max (i - 1) (j - 1) := by
      have := ih (i - 1) (j - 1) (by omega)
      rw [show i - 1 + 1 = i by omega, show j - 1 + 1 = j by omega] at this
      exact this
    have h2 := costOf_le_one a b i j
    omega

theorem dpFun_self (a : Str) : ∀ i, i ≤ a.length → dpFun a a (i + 1) (i + 1) = 0 := by
  intro i
  induction i with
  | zero =>
    intro _
    rw [dpFun_one_left a a 1 (by omega)]
  | succ i ih =>
    intro hle
    have h0 : dpFun a a (i + 1) (i + 1) = 0 := ih (by omega)
    have hrec := dpFun_rec a a (i + 2) (i + 2) (by omega) (by omega)
    simp only [show i + 2 - 1 = i + 1 from rfl] at hrec
    have hcost : costOf a a (i + 1) (i + 1) = 0 := by
      rw [costOf]
      have hia : i < a.length := by omega
      have hai : a.get? i = some (a.get ⟨i, hia⟩) := List.get?_eq_get hia
      rw [show i + 1 - 1 = i from rfl, if_pos ⟨by rw [hai]; rfl, rfl⟩]
    rw [hrec, h0, hcost]
    omega

theorem dpFun_eq_zero (a b : Str) :
    ∀ s i j, i + j ≤ s → dpFun a b (i + 1) (j + 1) = 0 → a.take i = b.take j ∧ i = j := by
  intro s
  induction s with
  | zero =>
    intro i j h _
    have hi : i = 0 := by omega
    have hj : j = 0 := by omega
    subst hi; subst hj
    simp
  | succ s ih =>
    intro i j h hz
    by_cases hi0 : i = 0
    · subst hi0
      rw [dpFun_one_left a b (j + 1) (by omega)] at hz
      simp only [Nat.add_sub_cancel] at hz
      subst hz
      simp
    by_cases hj0 : j = 0
    · rw [show j + 1 = 1 by omega, dpFun_one_right a b (i + 1) (by omega)] at hz
      omega
    have hrec := dpFun_rec a b (i + 1) (j + 1) (by omega) (by omega)
    simp only [Nat.add_sub_cancel] at hrec
    rw [hrec] at hz
    have hx : dpFun a b i j = 0 ∧ costOf a b i j = 0 := by omega
    obtain ⟨hx, hc⟩ := hx
    have hch : ∃ ch, a.get? (i - 1) = some ch ∧ b.get? (j - 1) = some ch := by
      rw [costOf] at hc
      by_cases hcond : (a.get? (i - 1)).isSome ∧ b.get? (j - 1) = a.get? (i - 1)
      · obtain ⟨hs, he⟩ := hcond
        obtain ⟨ch, hch⟩ := Option.isSome_iff_exists.mp hs
        exact ⟨ch, hch, by rw [he, hch]⟩
      · rw [if_neg hcond] at hc
        omega
    obtain ⟨ch, hach, hbch⟩ := hch
    have hx' : dpFun a b (i - 1 + 1) (j - 1 + 1) = 0 := by
      rw [show i - 1 + 1 = i by omega, show j - 1 + 1 = j by omega]
      exact hx
    obtain ⟨htake, hij⟩ := ih (i - 1) (j - 1) (by omega) hx'
    refine ⟨?_, by omega⟩
    have hach' : a[i - 1]? = some ch := by
      rw [← List.get?_eq_getElem?]
      exact hach
    have hbch' : b[j - 1]? = some ch := by
      rw [← List.get?_eq_getElem?]
      exact hbch
    have hta : a.take i = a.take (i - 1) ++ [ch] := by
      conv_lhs => rw [show i = (i - 1) + 1 by omega]
      rw [List.take_succ, hach']
      rfl
    have htb : b.take j = b.take (j - 1) ++ [ch] := by
      conv_lhs => rw [show j = (j - 1) + 1 by omega]
      rw [List.take_succ, hbch']
      rfl
    rw [hta, htb, htake]

/-! ### Distance-level corollaries -/

theorem dlDistance_symm (alen : Nat) (a b : Str)
    (ha : AsciiIn alen a) (hb : AsciiIn alen b) :
    dlDistance alen a b = dlDistance alen b a := by
  rw [dlDistance_spec alen a b ha hb, dlDistance_spec alen b a hb ha,
      dpFun_symm a b (a.length + 1 + (b.length + 1)) (a.length + 1) (b.length + 1) le_rfl]

theorem dlDistance_le_max (alen : Nat) (a b : Str)
    (ha : AsciiIn alen a) (hb : AsciiIn alen b) :
    ∃ d, dlDistance alen a b = .ok d ∧ d ≤ max a.length b.length := by
  refine ⟨_, dlDistance_spec alen a b ha hb, ?_⟩
  have h1 := dpFun_le_max a b (a.length + b.length) a.length b.length le_rfl
  have h2 := Nat.mod_le (dpFun a b (a.length + 1) (b.length + 1)) 256
  omega

theorem dlDistance_refl (alen : Nat) (a : Str) (ha : AsciiIn alen a) :
    dlDistance alen a a = .ok 0 := by
  rw [dlDistance_spec alen a a ha ha, dpFun_self a a.length le_rfl]

theorem dlDistance_zero_iff (alen : Nat) (a b : Str)
    (ha : AsciiIn alen a) (hb : AsciiIn alen b)
    (hla : a.length ≤ 255) (hlb : b.length ≤ 255) :
    dlDistance alen a b = .ok 0 ↔ a = b := by
  rw [dlDistance_spec alen a b ha hb]
  constructor
  · intro h
    have hval : dpFun a b (a.length + 1) (b.length + 1) % 256 = 0 := Except.ok.inj h
    have hle := dpFun_le_max a b (a.length + b.length) a.length b.length le_rfl
    have hz : dpFun a b (a.length + 1) (b.length + 1) = 0 := by omega
    obtain ⟨ht, hij⟩ := dpFun_eq_zero a b (a.length + b.length) a.length b.length le_rfl hz
    rw [List.take_length, List.take_length] at ht
    exact ht
  · intro h
    subst h
    rw [dpFun_self a a.length le_rfl]

theorem dlDistance_nil_right (alen : Nat) (a : Str) (ha : AsciiIn alen a) :
    dlDistance alen a [] = .ok (a.length % 256) := by
  rw [dlDistance_spec alen a [] ha (by intro c hc; simp at hc)]
  by_cases h : a.length = 0
  · rw [show List.length ([] : Str) + 1 = 1 from rfl, h, dpFun_one_left a [] 1 (by omega)]
  · rw [show List.length ([] : Str) + 1 = 1 from rfl,
        dpFun_one_right a [] (a.length + 1) (by omega)]
    norm_num

theorem err_bind {α β : Type} (e : String) (f : α → Except String β) :
    (Except.error e : Except String α) >>= f = .error e := rfl

theorem dlDistance_ok_lt (alen : Nat) (a b : Str) (d : Nat)
    (h : dlDistance alen a b = .ok d) : d < 256 := by
  rw [dlDistance] at h
  cases hrun : dlOuterAux a b (utf8Len b) (utf8Len a) 1 (dlInit (utf8Len a) (utf8Len b))
      (List.replicate alen 0) with
  | error e =>
    rw [hrun] at h
    exact absurd h (by simp [err_bind])
  | ok r =>
    rw [hrun] at h
    have : d = r.1 (utf8Len a + 1) (utf8Len b + 1) % 256 := (Except.ok.inj h).symm
    rw [this]
    exact Nat.mod_lt _ (by omega)

/-! ### Claim C9 -/

/-- C9: the claim states that the boundary cells of the dp table are seeded
with the sentinel `len(a) + len(b) + 1`.  At lengths `m = n = 1` the
initialization writes `dp[0][0] = 2 = len(a) + len(b)`, not `3`. -/
theorem C9_counterexample :
    dlInit 1 1 0 0 = 2 ∧ (2 : Nat) ≠ 1 + 1 + 1 := by
  decide

/-- C9 (amended): the boundary cells of the dp table (`dp[0][0]`,
`dp[i+1][0]` for `i ≤ m` and `dp[0][j+1]` for `j ≤ n`) are seeded with the
sentinel "infinity" value `len(a) + len(b)` (without the `+ 1`), so that
undefined transposition lookups default to an unreachable cost. -/
theorem C9_amended (m n : Nat) :
    dlInit m n 0 0 = m + n ∧
    (∀ i, i ≤ m → dlInit m n (i + 1) 0 = m + n) ∧
    (∀ j, j ≤ n → dlInit m n 0 (j + 1) = m + n) := by
  refine ⟨?_, fun i hi => ?_, fun j hj => ?_⟩
  · rw [dlInit_spec m n 0 0 (by omega) (by omega)]
    simp
  · rw [dlInit_spec m n (i + 1) 0 (by omega) (by omega)]
    simp
  · rw [dlInit_spec m n 0 (j + 1) (by omega) (by omega)]
    simp

/-- Witness for `C9_amended` at `m = 2, n = 3`. -/
theorem C9_amended_witness :
    dlInit 2 3 0 0 = 2 + 3 ∧ (1 ≤ 2 ∧ dlInit 2 3 (1 + 1) 0 = 2 + 3) :=
  ⟨(C9_amended 2 3).1, by decide, (C9_amended 2 3).2.1 1 (by decide)⟩

/-! ### Claim C5 -/

/-- C5: the claim fails on the code.  First, `"é"` (scalar value 233,
inside the configured alphabet of 255) has UTF-8 byte length 2 but only one
character, so `get_damerau_levenshtein_distance("é", "é")` returns an `Err`
instead of `Ok(0)` — `str::len` is a byte count while `chars().nth` walks
characters.  Second, the result is truncated with `as u8`: the distance
between `""` and a 256-character word is `Ok(0)` although the strings
differ, refuting `distance(a,b) == 0 ⟺ a == b`. -/
theorem C5_counterexample :
    dlDistance 255 [233] [233] = .error "Couldn't get the (j - 1)th character of b" ∧
    dlDistance 255 [233] [233] ≠ .ok 0 ∧
    dlDistance 255 [] (List.replicate 256 97) = .ok 0 ∧
    ([] : Str) ≠ List.replicate 256 97 := by
  set_option maxRecDepth 100000 in decide

/-- C5 (amended): for strings of ASCII characters inside the configured
alphabet and of length at most 255 (the `u8` range of the result),
the distance is symmetric, `distance(a,a) = Ok(0)`, and
`distance(a,b) = Ok(0)` iff `a = b`. -/
theorem C5_amended (alen : Nat) (a b : Str)
    (ha : AsciiIn alen a) (hb : AsciiIn alen b)
    (hla : a.length ≤ 255) (hlb : b.length ≤ 255) :
    dlDistance alen a b = dlDistance alen b a ∧
    dlDistance alen a a = .ok 0 ∧
    (dlDistance alen a b = .ok 0 ↔ a = b) :=
  ⟨dlDistance_symm alen a b ha hb, dlDistance_refl alen a ha,
   dlDistance_zero_iff alen a b ha hb hla hlb⟩

/-- Witness for `C5_amended` on `"hi"` and `"h"` over alphabet 255. -/
theorem C5_amended_witness :
    (AsciiIn 255 [104, 105] ∧ AsciiIn 255 [104] ∧
      ([104, 105] : Str).length ≤ 255 ∧ ([104] : Str).length ≤ 255) ∧
    (dlDistance 255 [104, 105] [104] = dlDistance 255 [104] [104, 105] ∧
      dlDistance 255 [104, 105] [104, 105] = .ok 0 ∧
      (dlDistance 255 [104, 105] [104] = .ok 0 ↔ ([104, 105] : Str) = [104])) :=
  ⟨⟨by decide, by decide, by decide, by decide⟩,
   C5_amended 255 [104, 105] [104] (by decide) (by decide) (by decide) (by decide)⟩

/-! ### Codec round-trip lemmas (claims C3, C4) -/

theorem decNat_enc (x : Nat) (r : List Nat) : decNat (encNat x ++ r) = some (x, r) := rfl

theorem decStr_enc (s r : List Nat) : decStr (encStr s ++ r) = some (s, r) := by
  show decStr (s.length :: (s ++ r)) = some (s, r)
  rw [decStr]
  rw [if_pos (by simp)]
  rw [List.take_left, List.drop_left]

theorem decOptNat_enc (o : Option Nat) (r : List Nat) :
    decOptNat (encOptNat o ++ r) = some (o, r) := by
  cases o <;> rfl

theorem decOptStr_enc (o : Option (List Nat)) (r : List Nat) :
    decOptStr (encOptStr o ++ r) = some (o, r) := by
  cases o with
  | none => rfl
  | some s =>
    show decOptStr (1 :: (encStr s ++ r)) = some (some s, r)
    rw [decOptStr, decStr_enc]
    rfl

theorem decListAux_enc {α : Type} (enc : α → List Nat)
    (dec : List Nat → Option (α × List Nat))
    (hrt : ∀ x r, dec (enc x ++ r) = some (x, r)) :
    ∀ (l : List α) (r : List Nat),
      decListAux dec l.length ((l.map enc).join ++ r) = some (l, r) := by
  intro l
  induction l with
  | nil => intro r; rfl
  | cons x xs ih =>
    intro r
    show decListAux dec (xs.length + 1) (((x :: xs).map enc).join ++ r) = some (x :: xs, r)
    have hj : ((x :: xs).map enc).join ++ r = enc x ++ ((xs.map enc).join ++ r) := by
      simp [List.join]
    rw [hj, decListAux, hrt]
    show (match decListAux dec xs.length ((xs.map enc).join ++ r) with
      | none => none
      | some (ys, rest2) => some (x :: ys, rest2)) = some (x :: xs, r)
    rw [ih]

theorem decList_enc {α : Type} (enc : α → List Nat)
    (dec : List Nat → Option (α × List Nat))
    (hrt : ∀ x r, dec (enc x ++ r) = some (x, r))
    (l : List α) (r : List Nat) :
    decList dec (encList enc l ++ r) = some (l, r) := by
  show decList dec (l.length :: ((l.map enc).join ++ r)) = some (l, r)
  rw [decList]
  exact decListAux_enc enc dec hrt l r

theorem decNode_enc (nd : Node) (r : List Nat) : decNode (encNode nd ++ r) = some (nd, r) := by
  cases nd with
  | mk w nx =>
    show decNode (encOptStr w ++ encList encOptNat nx ++ r) = some ({ word := w, next := nx }, r)
    rw [decNode, List.append_assoc, decOptStr_enc]
    show (match decList decOptNat (encList encOptNat nx ++ r) with
      | none => none
      | some (nx2, rest2) => some (Node.mk w nx2, rest2)) =
        some (Node.mk w nx, r)
    rw [decList_enc encOptNat decOptNat decOptNat_enc]

theorem decodeBKTree_enc (t : BKTree) : decodeBKTree (encodeBKTree t) = some t := by
  cases t with
  | mk mwl alen tr sz =>
    simp only [encodeBKTree, decodeBKTree, List.append_assoc]
    simp [decNat_enc, decList_enc encNode decNode decNode_enc, decNat, encNat]

theorem decodeBloomFilter_enc (bf : BloomFilter) :
    decodeBloomFilter (encodeBloomFilter bf) = some bf := by
  cases bf with
  | mk fp sz hc arr =>
    simp only [encodeBloomFilter, decodeBloomFilter, List.append_assoc]
    have hs := decStr_enc arr []
    rw [List.append_nil] at hs
    simp [decNat_enc, hs, decNat, encNat]

/-! ### Claims C4 and C3 -/

/-- C4: decoding an encoded blob yields a value equal field-for-field to
the original, for every `BKTree` (covering `max_word_length`,
`alphabet_length`, the complete preallocated node array including unused
slots, and `size`) and for every `BloomFilter` (covering `fp_prob`,
`size`, `hash_count` and the bit array). -/
theorem C4_roundtrip :
    (∀ t : BKTree, decodeBKTree (encodeBKTree t) = some t) ∧
    (∀ bf : BloomFilter, decodeBloomFilter (encodeBloomFilter bf) = some bf) :=
  ⟨decodeBKTree_enc, decodeBloomFilter_enc⟩

/-- C3: evaluation at the failing input.  On an empty (truncated) blob the
`BloomFilter` load path returns the typed decode error as the claim
states, but `impl From<File> for BKTree` panics (`expect`), modelled by
`none`: the claim's "never panics" is violated for the tree. -/
theorem C3_code_bug_eval :
    bkTreeFromFile [] = none ∧
    bloomFromFile (some []) = .error .decodeError ∧
    bloomFromFile none = .error .ioError := by
  decide

/-! ### Bloom filter: no false negatives (claim C6) -/

theorem insertProbes_length (hash : Str → Nat → Nat) (target : Str) (size : Nat) :
    ∀ count i arr arr', insertProbes hash target size i count arr = some arr' →
      arr'.length = arr.length := by
  intro count
  induction count with
  | zero =>
    intro i arr arr' h
    simp only [insertProbes] at h
    rw [← Option.some.inj h]
  | succ count ih =>
    intro i arr arr' h
    simp only [insertProbes] at h
    split at h
    · exact absurd h (by simp)
    · split at h
      · rw [ih (i + 1) _ _ h, List.length_set]
      · exact absurd h (by simp)

theorem insertProbes_size_ne (hash : Str → Nat → Nat) (target : Str) (size : Nat)
    (count i : Nat) (arr arr' : List Nat)
    (h : insertProbes hash target size i (count + 1) arr = some arr') : size ≠ 0 := by
  simp only [insertProbes] at h
  intro hz
  rw [if_pos hz] at h
  exact absurd h (by simp)

theorem insertProbes_mono (hash : Str → Nat → Nat) (target : Str) (size : Nat) :
    ∀ count i arr arr' p, insertProbes hash target size i count arr = some arr' →
      arr.get? p = some 1 → arr'.get? p = some 1 := by
  intro count
  induction count with
  | zero =>
    intro i arr arr' p h hp
    simp only [insertProbes] at h
    rw [← Option.some.inj h]
    exact hp
  | succ count ih =>
    intro i arr arr' p h hp
    simp only [insertProbes] at h
    split at h
    · exact absurd h (by simp)
    · split at h
      · apply ih (i + 1) _ _ p h
        by_cases hpd : p = hash target i % size
        · subst hpd
          rw [List.get?_set_eq_of_lt]
          assumption
        · rw [List.get?_set_ne _ _ (fun hc => hpd hc.symm)]
          exact hp
      · exact absurd h (by simp)

theorem insertProbes_sets (hash : Str → Nat → Nat) (target : Str) (size : Nat) :
    ∀ count i arr arr', insertProbes hash target size i count arr = some arr' →
      ∀ jj, jj < count → arr'.get? (hash target (i + jj) % size) = some 1 := by
  intro count
  induction count with
  | zero =>
    intro i arr arr' _ jj hjj
    omega
  | succ count ih =>
    intro i arr arr' h jj hjj
    have hd := h
    simp only [insertProbes] at hd
    split at hd
    · exact absurd hd (by simp)
    · split at hd
      · rename_i hsz hlt
        rcases Nat.eq_zero_or_pos jj with hjz | hjpos
        · subst hjz
          apply insertProbes_mono hash target size count (i + 1) _ _ _ hd
          rw [Nat.add_zero, List.get?_set_eq_of_lt _ hlt]
        · have : i + jj = (i + 1) + (jj - 1) := by omega
          rw [this]
          exact ih (i + 1) _ _ hd (jj - 1) (by omega)
      · exact absurd hd (by simp)

theorem lookupProbes_all_one (hash : Str → Nat → Nat) (target : Str) (size : Nat) :
    ∀ count i arr, size ≠ 0 →
      (∀ jj, jj < count → arr.get? (hash target (i + jj) % size) = some 1) →
      lookupProbes hash target size i count arr = some true := by
  intro count
  induction count with
  | zero =>
    intro i arr _ _
    rfl
  | succ count ih =>
    intro i arr hsz hbits
    simp only [lookupProbes]
    rw [if_neg hsz]
    have h0 : arr.get? (hash target i % size) = some 1 := by
      have := hbits 0 (by omega)
      rw [Nat.add_zero] at this
      exact this
    rw [h0]
    show (if (1 : Nat) = 0 then some false else lookupProbes hash target size (i + 1) count arr) =
      some true
    rw [if_neg (by omega)]
    apply ih (i + 1) arr hsz
    intro jj hjj
    have : i + 1 + jj = i + (jj + 1) := by omega
    rw [this]
    exact hbits (jj + 1) (by omega)

theorem insert_fields (hash : Str → Nat → Nat) (bf bf' : BloomFilter) (target : Str)
    (h : BloomFilter.insert hash bf target = some bf') :
    bf'.size = bf.size ∧ bf'.hash_count = bf.hash_count ∧
    insertProbes hash target bf.size 0 bf.hash_count bf.bitarray = some bf'.bitarray := by
  rw [BloomFilter.insert] at h
  cases hp : insertProbes hash target bf.size 0 bf.hash_count bf.bitarray with
  | none =>
    rw [hp] at h
    exact absurd h (by simp)
  | some arr' =>
    rw [hp] at h
    simp only [Option.map_some'] at h
    rw [← Option.some.inj h]
    exact ⟨rfl, rfl, rfl⟩

theorem insertMany_mono (hash : Str → Nat → Nat) :
    ∀ (ws : List Str) (bf bf' : BloomFilter),
      insertMany hash bf ws = some bf' →
      bf'.size = bf.size ∧ bf'.hash_count = bf.hash_count ∧
      (∀ p, bf.bitarray.get? p = some 1 → bf'.bitarray.get? p = some 1) := by
  intro ws
  induction ws with
  | nil =>
    intro bf bf' h
    rw [show bf' = bf from (Option.some.inj h).symm]
    exact ⟨rfl, rfl, fun _ hp => hp⟩
  | cons w ws ih =>
    intro bf bf' h
    rw [insertMany, List.foldlM_cons] at h
    cases hins : BloomFilter.insert hash bf w with
    | none =>
      rw [hins] at h
      exact absurd h (by simp)
    | some bf1 =>
      rw [hins] at h
      obtain ⟨hsz, hhc, hrest⟩ := ih bf1 bf' h
      obtain ⟨hsz1, hhc1, hprobes⟩ := insert_fields hash bf bf1 w hins
      refine ⟨by omega, by omega, ?_⟩
      intro p hp
      exact hrest p (insertProbes_mono hash w bf.size bf.hash_count 0 _ _ p hprobes hp)

/-- C6: for every hash function (the std `DefaultHasher` behind
`hash_with_seed` is modelled as a parameter), every filter, and every
sequence of inserts, every inserted item looks up as `true` afterwards:
no false negatives, regardless of the other items inserted before or
after it. -/
theorem C6_no_false_negatives (hash : Str → Nat → Nat) (bf : BloomFilter)
    (ws : List Str) (x : Str) (bf' : BloomFilter)
    (hx : x ∈ ws) (hrun : insertMany hash bf ws = some bf') :
    BloomFilter.lookup hash bf' x = some true := by
  induction ws generalizing bf with
  | nil => exact absurd hx (by simp)
  | cons w ws ih =>
    rw [insertMany, List.foldlM_cons] at hrun
    cases hins : BloomFilter.insert hash bf w with
    | none =>
      rw [hins] at hrun
      exact absurd hrun (by simp)
    | some bf1 =>
      rw [hins] at hrun
      rcases List.mem_cons.mp hx with hxw | hxs
      · subst hxw
        obtain ⟨hsz1, hhc1, hprobes⟩ := insert_fields hash bf bf1 x hins
        obtain ⟨hsz, hhc, hmono⟩ := insertMany_mono hash ws bf1 bf' hrun
        rw [BloomFilter.lookup]
        rcases Nat.eq_zero_or_pos bf'.hash_count with hhc0 | hhcpos
        · rw [hhc0]
          rfl
        · have hszne : bf.size ≠ 0 := by
            apply insertProbes_size_ne hash x bf.size (bf.hash_count - 1) 0 bf.bitarray
            rw [show bf.hash_count - 1 + 1 = bf.hash_count by omega]
            exact hprobes
          apply lookupProbes_all_one hash x bf'.size bf'.hash_count 0 bf'.bitarray
            (by omega)
          intro jj hjj
          rw [Nat.zero_add]
          have hbit1 : bf1.bitarray.get? (hash x jj % bf.size) = some 1 := by
            have := insertProbes_sets hash x bf.size bf.hash_count 0 _ _ hprobes jj
              (by omega)
            rw [Nat.zero_add] at this
            exact this
          have := hmono _ hbit1
          rw [hsz1] at hsz
          rw [hsz]
          exact this
      · exact ih bf1 hxs hrun

/-- Witness for `C6_no_false_negatives`: a concrete hash, filter, and
insert sequence. -/
theorem C6_witness :
    ([3] ∈ ([[1, 2], [3]] : List Str) ∧
      insertMany (fun s i => s.length + 3 * i) (BloomFilter.mk 0 8 2 (List.replicate 8 0))
        [[1, 2], [3]] =
        some (BloomFilter.mk 0 8 2 [0, 1, 1, 0, 1, 1, 0, 0])) ∧
    BloomFilter.lookup (fun s i => s.length + 3 * i)
      (BloomFilter.mk 0 8 2 [0, 1, 1, 0, 1, 1, 0, 0]) [3] = some true :=
  ⟨⟨by decide, by decide⟩,
   C6_no_false_negatives (fun s i => s.length + 3 * i)
     (BloomFilter.mk 0 8 2 (List.replicate 8 0)) [[1, 2], [3]] [3]
     (BloomFilter.mk 0 8 2 [0, 1, 1, 0, 1, 1, 0, 0]) (by decide) (by decide)⟩

theorem Extends_refl (t : BKTree) : Extends t t :=
  ⟨rfl, rfl, rfl, le_rfl, fun _ _ h => h, fun _ _ _ h => h⟩

theorem Extends_trans (t1 t2 t3 : BKTree) (h12 : Extends t1 t2) (h23 : Extends t2 t3) :
    Extends t1 t3 :=
  ⟨h23.1.trans h12.1, h23.2.1.trans h12.2.1, h23.2.2.1.trans h12.2.2.1,
   h12.2.2.2.1.trans h23.2.2.2.1,
   fun i w h => h23.2.2.2.2.1 i w (h12.2.2.2.2.1 i w h),
   fun i d n h => h23.2.2.2.2.2 i d n (h12.2.2.2.2.2 i d n h)⟩

theorem Finds_mono (alen : Nat) (t t' : BKTree) (w : Str) (hext : Extends t t') :
    ∀ c, Finds alen t w c → Finds alen t' w c := by
  intro c hf
  induction hf with
  | found c u hw hd => exact Finds.found c u (hext.2.2.2.2.1 c u hw) hd
  | step c u d n hw hd hdn hl _ ih =>
    exact Finds.step c u d n (hext.2.2.2.2.1 c u hw) hd hdn (hext.2.2.2.2.2 c d n hl) ih

theorem treeWord_intro (t : BKTree) (i : Nat) (nd : Node) (u : Str)
    (h1 : t.tree.get? i = some nd) (h2 : nd.word = some u) : treeWord t i = some u := by
  rw [treeWord, h1, Option.some_bind, h2]

theorem treeWord_elim (t : BKTree) (i : Nat) (u : Str) (h : treeWord t i = some u) :
    ∃ nd, t.tree.get? i = some nd ∧ nd.word = some u := by
  rw [treeWord] at h
  cases h1 : t.tree.get? i with
  | none =>
    rw [h1] at h
    exact absurd h (by simp)
  | some nd =>
    rw [h1, Option.some_bind] at h
    exact ⟨nd, rfl, h⟩

theorem treeLink_intro (t : BKTree) (i d n : Nat) (nd : Node)
    (h1 : t.tree.get? i = some nd) (h2 : nd.next.get? d = some (some n)) :
    treeLink t i d = some n := by
  rw [treeLink, h1, Option.some_bind, h2, Option.some_bind]
  rfl

theorem treeLink_elim (t : BKTree) (i d n : Nat) (h : treeLink t i d = some n) :
    ∃ nd, t.tree.get? i = some nd ∧ nd.next.get? d = some (some n) := by
  rw [treeLink] at h
  cases h1 : t.tree.get? i with
  | none =>
    rw [h1] at h
    exact absurd h (by simp)
  | some nd =>
    rw [h1, Option.some_bind] at h
    cases h2 : nd.next.get? d with
    | none =>
      rw [h2] at h
      exact absurd h (by simp)
    | some o =>
      rw [h2, Option.some_bind] at h
      exact ⟨nd, rfl, by rw [h2, show o = some n from h]⟩

theorem WF_new (L alen k : Nat) : WF (BKTree.new L alen k) := by
  constructor
  · simp [BKTree.new]
  · intro i nd h
    have hlen : i < k := by
      by_contra hk
      rw [List.get?_eq_none.mpr (by simp [BKTree.new]; omega)] at h
      exact absurd h (by simp)
    have hnd : nd = Node.new none L := by
      have hg := List.get?_eq_get (l := (BKTree.new L alen k).tree) (n := i)
        (by simp [BKTree.new]; omega)
      rw [hg] at h
      have := Option.some.inj h
      rw [← this]
      simp [BKTree.new, Node.new]
    subst hnd
    refine ⟨by simp [Node.new, BKTree.new], by simp [Node.new, BKTree.new], ?_, ?_⟩
    · intro w hw
      exact absurd hw (by simp [Node.new])
    · intro d n hd
      have hcases : (Node.new none L).next.get? d = none ∨
          (Node.new none L).next.get? d = some none := by
        simp only [Node.new]
        by_cases hdl : d < L + 1
        · right
          simp [List.get?_eq_get, List.length_replicate, hdl, List.getElem_replicate]
        · left
          rw [List.get?_eq_none.mpr (by simp; omega)]
      rcases hcases with h1 | h1 <;> rw [h1] at hd <;> exact absurd hd (by simp)

theorem addFill_get_size (t : BKTree) (w : Str) (current d : Nat) (nd ndS : Node)
    (hszlt : t.size < t.tree.length) :
    (addFill t w current d nd ndS).tree.get? t.size =
      some { word := some w, next := ndS.next } := by
  apply List.get?_set_eq_of_lt
  simpa using hszlt

theorem addFill_get_current (t : BKTree) (w : Str) (current d : Nat) (nd ndS : Node)
    (hne : current ≠ t.size) (hlt : current < t.tree.length) :
    (addFill t w current d nd ndS).tree.get? current =
      some { word := nd.word, next := nd.next.set d (some t.size) } := by
  show ((t.tree.set current _).set t.size _).get? current = _
  rw [List.get?_set_ne _ _ (fun h => hne h.symm), List.get?_set_eq_of_lt _ hlt]

theorem addFill_get_other (t : BKTree) (w : Str) (current d i : Nat) (nd ndS : Node)
    (hne1 : i ≠ t.size) (hne2 : i ≠ current) :
    (addFill t w current d nd ndS).tree.get? i = t.tree.get? i := by
  show ((t.tree.set current _).set t.size _).get? i = _
  rw [List.get?_set_ne _ _ (fun h => hne1 h.symm), List.get?_set_ne _ _ (fun h => hne2 h.symm)]

theorem addFresh_get_size (t : BKTree) (w : Str) (ndS : Node)
    (hszlt : t.size < t.tree.length) :
    (addFresh t w ndS).tree.get? t.size = some { word := some w, next := ndS.next } :=
  List.get?_set_eq_of_lt _ hszlt

theorem addFresh_get_other (t : BKTree) (w : Str) (i : Nat) (ndS : Node)
    (hne : i ≠ t.size) :
    (addFresh t w ndS).tree.get? i = t.tree.get? i :=
  List.get?_set_ne _ _ (fun h => hne h.symm)

theorem word_none_of_size (t : BKTree) (hwf : WF t) (ndS : Node)
    (hndS : t.tree.get? t.size = some ndS) : ndS.word = none := by
  have h := (hwf.2 t.size ndS hndS).2.1
  cases hw : ndS.word with
  | none => rfl
  | some u =>
    exfalso
    have : t.size < t.size := h.mp (by rw [hw]; rfl)
    omega

theorem addFill_wf (t : BKTree) (w : Str) (current d : Nat) (nd ndS : Node)
    (hwf : WF t)
    (hgw : GoodWord t.max_word_length t.alphabet_length w)
    (hszlt : t.size < t.tree.length)
    (hnode : t.tree.get? current = some nd)
    (hcs : current < t.size)
    (hdne : d ≠ 0)
    (hdlt : d < nd.next.length)
    (hndS : t.tree.get? t.size = some ndS) :
    WF (addFill t w current d nd ndS) := by
  have hndSw : ndS.word = none := word_none_of_size t hwf ndS hndS
  have hclen : current < t.tree.length := by
    have := hwf.1
    omega
  have hcne : current ≠ t.size := by omega
  constructor
  · show t.size + 1 ≤ ((t.tree.set current _).set t.size _).length
    simp
    omega
  · intro i nd2 hget
    show WFNode t.max_word_length t.alphabet_length (t.size + 1) i nd2
    have hwfS := hwf.2 t.size ndS hndS
    by_cases hiS : i = t.size
    · subst hiS
      rw [addFill_get_size t w current d nd ndS hszlt] at hget
      rw [← Option.some.inj hget]
      refine ⟨?_, by simp, ?_, ?_⟩
      · show ndS.next.length = _
        exact hwfS.1
      · intro v hv
        rw [show v = w from (Option.some.inj hv).symm]
        exact hgw
      · intro d' n' hd'
        have := hwfS.2.2.2 d' n' hd'
        omega
    · by_cases hiC : i = current
      · subst hiC
        rw [addFill_get_current t w i d nd ndS hcne hclen] at hget
        rw [← Option.some.inj hget]
        have hwfC := hwf.2 i nd hnode
        refine ⟨?_, ?_, ?_, ?_⟩
        · show (nd.next.set d (some t.size)).length = _
          rw [List.length_set]
          exact hwfC.1
        · show nd.word.isSome ↔ i < t.size + 1
          rw [hwfC.2.1]
          constructor
          · omega
          · intro _
            omega
        · exact hwfC.2.2.1
        · intro d' n' hd'
          by_cases hdd : d' = d
          · subst hdd
            rw [List.get?_set_eq_of_lt _ hdlt] at hd'
            have : t.size = n' := Option.some.inj (Option.some.inj hd')
            omega
          · rw [List.get?_set_ne _ _ (fun h => hdd h.symm)] at hd'
            have := hwfC.2.2.2 d' n' hd'
            omega
      · rw [addFill_get_other t w current d i nd ndS hiS hiC] at hget
        have hwfO := hwf.2 i nd2 hget
        refine ⟨hwfO.1, ?_, hwfO.2.2.1, ?_⟩
        · rw [hwfO.2.1]
          constructor
          · omega
          · intro h
            omega
        · intro d' n' hd'
          have := hwfO.2.2.2 d' n' hd'
          omega

theorem addFill_extends (t : BKTree) (w : Str) (current d : Nat) (nd ndS : Node)
    (hwf : WF t)
    (hszlt : t.size < t.tree.length)
    (hnode : t.tree.get? current = some nd)
    (hcs : current < t.size)
    (hslot : nd.next.get? d = some none)
    (hndS : t.tree.get? t.size = some ndS) :
    Extends t (addFill t w current d nd ndS) := by
  have hndSw : ndS.word = none := word_none_of_size t hwf ndS hndS
  have hclen : current < t.tree.length := by
    have := hwf.1
    omega
  have hcne : current ≠ t.size := by omega
  refine ⟨rfl, rfl, by simp [addFill], by simp [addFill], ?_, ?_⟩
  · intro i v hv
    obtain ⟨nd2, hget2, hw2⟩ := treeWord_elim t i v hv
    have hiS : i ≠ t.size := by
      intro h
      subst h
      rw [hndS] at hget2
      rw [← Option.some.inj hget2] at hw2
      rw [hndSw] at hw2
      exact absurd hw2 (by simp)
    by_cases hiC : i = current
    · subst hiC
      rw [hnode] at hget2
      rw [← Option.some.inj hget2] at hw2
      exact treeWord_intro _ i _ v (addFill_get_current t w i d nd ndS hcne hclen) hw2
    · exact treeWord_intro _ i nd2 v (by rw [addFill_get_other t w current d i nd ndS hiS hiC]; exact hget2) hw2
  · intro i d' n hln
    obtain ⟨nd2, hget2, hl2⟩ := treeLink_elim t i d' n hln
    have hiS : i ≠ t.size := by
      intro h
      subst h
      rw [hndS] at hget2
      rw [← Option.some.inj hget2] at hl2
      have := (hwf.2 t.size ndS hndS).2.2.2 d' n hl2
      omega
    by_cases hiC : i = current
    · subst hiC
      rw [hnode] at hget2
      rw [← Option.some.inj hget2] at hl2
      have hdd : d' ≠ d := by
        intro h
        subst h
        rw [hslot] at hl2
        exact absurd (Option.some.inj hl2) (by simp)
      apply treeLink_intro _ i d' n _ (addFill_get_current t w i d nd ndS hcne hclen)
      show (nd.next.set d (some t.size)).get? d' = some (some n)
      rw [List.get?_set_ne _ _ (fun h => hdd h.symm)]
      exact hl2
    · exact treeLink_intro _ i d' n nd2
        (by rw [addFill_get_other t w current d i nd ndS hiS hiC]; exact hget2) hl2

theorem addFresh_wf (t : BKTree) (w : Str) (ndS : Node)
    (hwf : WF t)
    (hgw : GoodWord t.max_word_length t.alphabet_length w)
    (hszlt : t.size < t.tree.length)
    (hsz0 : t.size = 0)
    (hndS : t.tree.get? t.size = some ndS) :
    WF (addFresh t w ndS) := by
  have hwfS := hwf.2 t.size ndS hndS
  constructor
  · show t.size + 1 ≤ (t.tree.set t.size _).length
    simp
    omega
  · intro i nd2 hget
    show WFNode t.max_word_length t.alphabet_length (t.size + 1) i nd2
    by_cases hiS : i = t.size
    · subst hiS
      rw [addFresh_get_size t w ndS hszlt] at hget
      rw [← Option.some.inj hget]
      refine ⟨hwfS.1, by simp, ?_, ?_⟩
      · intro v hv
        rw [show v = w from (Option.some.inj hv).symm]
        exact hgw
      · intro d' n' hd'
        have := hwfS.2.2.2 d' n' hd'
        omega
    · rw [addFresh_get_other t w i ndS hiS] at hget
      have hwfO := hwf.2 i nd2 hget
      refine ⟨hwfO.1, ?_, hwfO.2.2.1, ?_⟩
      · rw [hwfO.2.1]
        constructor
        · omega
        · intro h
          omega
      · intro d' n' hd'
        have := hwfO.2.2.2 d' n' hd'
        omega

theorem addFresh_extends (t : BKTree) (w : Str) (ndS : Node)
    (hwf : WF t)
    (hsz0 : t.size = 0)
    (hszlt : t.size < t.tree.length)
    (hndS : t.tree.get? t.size = some ndS) :
    Extends t (addFresh t w ndS) := by
  refine ⟨rfl, rfl, by simp [addFresh], by simp [addFresh], ?_, ?_⟩
  · intro i v hv
    exfalso
    obtain ⟨nd2, hget2, hw2⟩ := treeWord_elim t i v hv
    have := (hwf.2 i nd2 hget2).2.1.mp (by rw [hw2]; rfl)
    omega
  · intro i d' n hln
    exfalso
    obtain ⟨nd2, hget2, hl2⟩ := treeLink_elim t i d' n hln
    have := (hwf.2 i nd2 hget2).2.2.2 d' n hl2
    omega

theorem dlDistance_nil_left (alen : Nat) (b : Str) (hb : AsciiIn alen b) :
    dlDistance alen [] b = .ok (b.length % 256) := by
  rw [dlDistance_spec alen [] b (by intro c hc; simp at hc) hb]
  by_cases h : b.length = 0
  · rw [show List.length ([] : Str) + 1 = 1 from rfl, h, dpFun_one_left [] b 1 (by omega)]
  · rw [show List.length ([] : Str) + 1 = 1 from rfl,
        dpFun_one_left [] b (b.length + 1) (by omega)]
    norm_num

theorem node_str_ok (t : BKTree) (hwf : WF t) (i : Nat) (nd : Node)
    (h : t.tree.get? i = some nd) :
    AsciiIn t.alphabet_length (nd.word.getD []) ∧
    (nd.word.getD []).length ≤ t.max_word_length ∧ (nd.word.getD []).length ≤ 255 := by
  cases hw : nd.word with
  | none =>
    refine ⟨?_, by simp, by simp⟩
    intro c hc
    simp at hc
  | some u =>
    have hg := (hwf.2 i nd h).2.2.1 u hw
    simp only [Option.getD_some]
    exact ⟨hg.1.1, hg.1.2.1, hg.1.2.2⟩

theorem addLoop_spec :
    ∀ fuel current (t : BKTree) (w : Str),
      WF t →
      GoodWord t.max_word_length t.alphabet_length w →
      t.size < t.tree.length →
      (current < t.size ∨ (t.size = 0 ∧ current = 0)) →
      t.tree.length + 1 ≤ fuel + current →
      ∃ t', addLoop t w current fuel = .ok t' ∧
        WF t' ∧ Extends t t' ∧ t'.size ≤ t.size + 1 ∧
        Finds t.alphabet_length t' w current := by
  intro fuel
  induction fuel with
  | zero =>
    intro current t w hwf _ hszlt hcur hfuel
    exfalso
    have := hwf.1
    omega
  | succ fuel ih =>
    intro current t w hwf hgw hszlt hcur hfuel
    have hsl := hwf.1
    have hclen : current < t.tree.length := by omega
    have hnode : t.tree.get? current = some (t.tree.get ⟨current, hclen⟩) :=
      List.get?_eq_get hclen
    generalize hnd_eq : t.tree.get ⟨current, hclen⟩ = nd at hnode
    have hwfn := hwf.2 current nd hnode
    have hstr := node_str_ok t hwf current nd hnode
    obtain ⟨d, hd, hdle⟩ :=
      dlDistance_le_max t.alphabet_length (nd.word.getD []) w hstr.1 hgw.1.1
    have hdL : d ≤ t.max_word_length := by
      have h1 := hstr.2.1
      have h2 := hgw.1.2.1
      omega
    simp only [addLoop, BKTree.get_damerau_levenshtein_distance, hnode, orPanic, ok_bind, hd]
    by_cases hd0 : d = 0
    · rw [if_pos hd0]
      refine ⟨t, rfl, hwf, Extends_refl t, by omega, ?_⟩
      cases hword : nd.word with
      | none =>
        exfalso
        rw [hword] at hd
        rw [show ((none : Option Str).getD []) = ([] : Str) from rfl,
            dlDistance_nil_left t.alphabet_length w hgw.1.1] at hd
        have hlen0 : w.length % 256 = d := Except.ok.inj hd
        have hwpos : 0 < w.length := List.length_pos.mpr hgw.2
        have hw255 := hgw.1.2.2
        have : w.length % 256 = w.length := Nat.mod_eq_of_lt (by omega)
        omega
      | some u =>
        apply Finds.found current u (treeWord_intro t current nd u hnode hword)
        rw [hword] at hd
        rw [hd0] at hd
        exact hd
    · rw [if_neg hd0]
      have hdlt : d < nd.next.length := by
        rw [hwfn.1]
        omega
      have hslot : nd.next.get? d = some (nd.next.get ⟨d, hdlt⟩) := List.get?_eq_get hdlt
      cases hsv : nd.next.get ⟨d, hdlt⟩ with
      | some n =>
        have hlink : nd.next.get? d = some (some n) := by rw [hslot, hsv]
        obtain ⟨hcn, hns⟩ := hwfn.2.2.2 d n hlink
        obtain ⟨t', hrun, hwf', hext', hsz', hfinds⟩ :=
          ih n t w hwf hgw hszlt (Or.inl hns) (by omega)
        have hws : nd.word.isSome := hwfn.2.1.mpr (by omega)
        obtain ⟨u, hword⟩ := Option.isSome_iff_exists.mp hws
        simp only [hlink, orPanic, ok_bind]
        refine ⟨t', hrun, hwf', hext', hsz', ?_⟩
        apply Finds.step current u d n
        · exact hext'.2.2.2.2.1 current u (treeWord_intro t current nd u hnode hword)
        · rw [hword] at hd
          exact hd
        · exact hd0
        · exact hext'.2.2.2.2.2 current d n (treeLink_intro t current d n nd hnode hlink)
        · exact hfinds
      | none =>
        have hlink : nd.next.get? d = some none := by rw [hslot, hsv]
        simp only [hlink, orPanic, ok_bind]
        by_cases hwsb : nd.word.isSome = true
        · -- filled-slot insertion
          obtain ⟨u, hword⟩ := Option.isSome_iff_exists.mp hwsb
          have hws1 : (nd.word.isSome = true) = True := by simp [hwsb]
          have hcs : current < t.size := hwfn.2.1.mp hwsb
          have hcne : current ≠ t.size := by omega
          have hndS0 : t.tree.get? t.size = some (t.tree.get ⟨t.size, hszlt⟩) :=
            List.get?_eq_get hszlt
          generalize hndS_eq : t.tree.get ⟨t.size, hszlt⟩ = ndS at hndS0
          have hndS : (t.tree.set current
              { word := nd.word, next := nd.next.set d (some t.size) }).get? t.size =
              some ndS := by
            rw [List.get?_set_ne _ _ hcne]
            exact hndS0
          simp only [hws1, if_true, hndS, orPanic, ok_bind]
          refine ⟨addFill t w current d nd ndS, rfl,
            addFill_wf t w current d nd ndS hwf hgw hszlt hnode hcs hd0 hdlt hndS0,
            addFill_extends t w current d nd ndS hwf hszlt hnode hcs hlink hndS0, ?_, ?_⟩
          · exact le_rfl
          · apply Finds.step current u d t.size
            · apply treeWord_intro _ current
                { word := nd.word, next := nd.next.set d (some t.size) } u
                (addFill_get_current t w current d nd ndS hcne hclen)
              exact hword
            · rw [hword] at hd
              exact hd
            · exact hd0
            · apply treeLink_intro _ current d t.size
                { word := nd.word, next := nd.next.set d (some t.size) }
                (addFill_get_current t w current d nd ndS hcne hclen)
              show (nd.next.set d (some t.size)).get? d = some (some t.size)
              rw [List.get?_set_eq_of_lt _ hdlt]
            · apply Finds.found t.size w
                (treeWord_intro _ t.size { word := some w, next := ndS.next } w
                  (addFill_get_size t w current d nd ndS hszlt) rfl)
              exact dlDistance_refl t.alphabet_length w hgw.1.1
        · -- absent-root insertion
          have hword : nd.word = none := by
            cases hwv : nd.word with
            | none => rfl
            | some u => exact absurd (by rw [hwv]; rfl) hwsb
          have hws0 : (nd.word.isSome = true) = False := by simp [hword]
          have hsz0 : t.size = 0 := by
            rcases hcur with h | h
            · exfalso
              have := hwfn.2.1.mpr h
              rw [hword] at this
              exact absurd this (by simp)
            · exact h.1
          have hcur0 : current = 0 := by
            rcases hcur with h | h
            · exfalso
              omega
            · exact h.2
          have hndS0 : t.tree.get? t.size = some nd := by
            rw [hsz0, ← hcur0]
            exact hnode
          simp only [hws0, if_false, hndS0, orPanic, ok_bind]
          refine ⟨addFresh t w nd, rfl,
            addFresh_wf t w nd hwf hgw hszlt hsz0 hndS0,
            addFresh_extends t w nd hwf hsz0 hszlt hndS0, ?_, ?_⟩
          · exact le_rfl
          · apply Finds.found current w
            · apply treeWord_intro _ current { word := some w, next := nd.next } w
              · rw [hcur0, ← hsz0]
                exact addFresh_get_size t w nd hszlt
              · rfl
            · exact dlDistance_refl t.alphabet_length w hgw.1.1

theorem add_spec (t : BKTree) (w : Str)
    (hwf : WF t)
    (hgw : GoodWord t.max_word_length t.alphabet_length w)
    (hszlt : t.size < t.tree.length) :
    ∃ t', t.add w = .ok t' ∧ WF t' ∧ Extends t t' ∧ t'.size ≤ t.size + 1 ∧
      Finds t.alphabet_length t' w 0 :=
  addLoop_spec (t.tree.length + 1) 0 t w hwf hgw hszlt (by omega) (by omega)

theorem index_lt_of_get? {α : Type} (l : List α) (i : Nat) (x : α)
    (h : l.get? i = some x) : i < l.length := by
  by_contra hc
  rw [List.get?_eq_none.mpr (by omega)] at h
  exact absurd h (by simp)

theorem containsLoop_finds (t : BKTree) (w : Str) (hwf : WF t) :
    ∀ c, Finds t.alphabet_length t w c →
    ∀ fuel, t.tree.length + 1 ≤ fuel + c →
    containsLoop t w c fuel = .ok true := by
  intro c hf
  induction hf with
  | found c u hword hdist =>
    intro fuel hfuel
    obtain ⟨nd, hget, hw⟩ := treeWord_elim t c u hword
    have hclen : c < t.tree.length := index_lt_of_get? _ _ _ hget
    cases fuel with
    | zero => omega
    | succ fuel =>
      simp only [containsLoop, BKTree.get_damerau_levenshtein_distance, hget, orPanic,
        ok_bind, hw, Option.getD_some, hdist]
      rfl
  | step c u d n hword hdist hdne hlinkk hfindsn ih =>
    intro fuel hfuel
    obtain ⟨nd, hget, hw⟩ := treeWord_elim t c u hword
    have hclen : c < t.tree.length := index_lt_of_get? _ _ _ hget
    obtain ⟨nd2, hget2, hl2⟩ := treeLink_elim t c d n hlinkk
    have hnd2 : nd2 = nd := by
      rw [hget] at hget2
      exact (Option.some.inj hget2).symm
    subst hnd2
    have hn := (hwf.2 c nd2 hget).2.2.2 d n hl2
    cases fuel with
    | zero => omega
    | succ fuel =>
      simp only [containsLoop, BKTree.get_damerau_levenshtein_distance, hget, orPanic,
        ok_bind, hw, Option.getD_some, hdist]
      rw [if_neg hdne]
      simp only [hl2, orPanic, ok_bind]
      exact ih fuel (by omega)

theorem containsLoop_total (t : BKTree) (q : Str) (hwf : WF t)
    (hq : AsciiIn t.alphabet_length q) (hqL : q.length ≤ t.max_word_length) :
    ∀ fuel c, (c < t.size ∨ (t.size = 0 ∧ c = 0)) → 0 < t.tree.length →
      t.tree.length + 1 ≤ fuel + c →
      ∃ bb, containsLoop t q c fuel = .ok bb := by
  intro fuel
  induction fuel with
  | zero =>
    intro c hc _ hfuel
    exfalso
    have := hwf.1
    omega
  | succ fuel ih =>
    intro c hc hlen0 hfuel
    have hsl := hwf.1
    have hclen : c < t.tree.length := by omega
    have hnode : t.tree.get? c = some (t.tree.get ⟨c, hclen⟩) := List.get?_eq_get hclen
    generalize hnd_eq : t.tree.get ⟨c, hclen⟩ = nd at hnode
    have hwfn := hwf.2 c nd hnode
    have hstr := node_str_ok t hwf c nd hnode
    obtain ⟨d, hd, hdle⟩ :=
      dlDistance_le_max t.alphabet_length (nd.word.getD []) q hstr.1 hq
    have hdL : d ≤ t.max_word_length := by
      have h1 := hstr.2.1
      omega
    simp only [containsLoop, BKTree.get_damerau_levenshtein_distance, hnode, orPanic,
      ok_bind, hd]
    by_cases hd0 : d = 0
    · exact ⟨true, by rw [if_pos hd0]⟩
    · rw [if_neg hd0]
      have hdlt : d < nd.next.length := by
        rw [hwfn.1]
        omega
      have hslot : nd.next.get? d = some (nd.next.get ⟨d, hdlt⟩) := List.get?_eq_get hdlt
      cases hsv : nd.next.get ⟨d, hdlt⟩ with
      | some n =>
        have hlink : nd.next.get? d = some (some n) := by rw [hslot, hsv]
        obtain ⟨hcn, hns⟩ := hwfn.2.2.2 d n hlink
        obtain ⟨bb, hbb⟩ := ih n (Or.inl hns) hlen0 (by omega)
        refine ⟨bb, ?_⟩
        simp only [hlink, orPanic, ok_bind]
        exact hbb
      | none =>
        have hlink : nd.next.get? d = some none := by rw [hslot, hsv]
        refine ⟨false, ?_⟩
        simp only [hlink, orPanic, ok_bind]

theorem gswLoop_finds (t : BKTree) (w : Str) (hwf : WF t)
    (hgw : GoodWord t.max_word_length t.alphabet_length w) :
    ∀ c, Finds t.alphabet_length t w c →
    ∀ acc fuel, t.tree.length + 1 ≤ fuel + c →
      gswLoop t w 0 [c] acc fuel = .ok (acc ++ [w]) := by
  intro c hf
  induction hf with
  | found c u hword hdist =>
    intro acc fuel hfuel
    obtain ⟨nd, hget, hw⟩ := treeWord_elim t c u hword
    have hclen : c < t.tree.length := index_lt_of_get? _ _ _ hget
    have hu := (hwf.2 c nd hget).2.2.1 u hw
    have hsymm : dlDistance t.alphabet_length w u = .ok 0 := by
      rw [dlDistance_symm t.alphabet_length w u hgw.1.1 hu.1.1]
      exact hdist
    have huw : u = w :=
      (dlDistance_zero_iff t.alphabet_length u w hu.1.1 hgw.1.1 hu.1.2.2 hgw.1.2.2).mp hdist
    subst huw
    cases fuel with
    | zero => omega
    | succ fuel =>
      cases fuel with
      | zero => omega
      | succ fuel =>
        simp only [gswLoop, BKTree.get_damerau_levenshtein_distance, hget, orPanic,
          ok_bind, hw, Option.getD_some, hsymm]
        rfl
  | step c u d n hword hdist hdne hlinkk hfindsn ih =>
    intro acc fuel hfuel
    obtain ⟨nd, hget, hw⟩ := treeWord_elim t c u hword
    have hclen : c < t.tree.length := index_lt_of_get? _ _ _ hget
    obtain ⟨nd2, hget2, hl2⟩ := treeLink_elim t c d n hlinkk
    have hnd2 : nd2 = nd := by
      rw [hget] at hget2
      exact (Option.some.inj hget2).symm
    subst hnd2
    have hn := (hwf.2 c nd2 hget).2.2.2 d n hl2
    have hu := (hwf.2 c nd2 hget).2.2.1 u hw
    have hsymm : dlDistance t.alphabet_length w u = .ok d := by
      rw [dlDistance_symm t.alphabet_length w u hgw.1.1 hu.1.1]
      exact hdist
    have hd256 : d < 256 := dlDistance_ok_lt t.alphabet_length u w d hdist
    cases fuel with
    | zero => omega
    | succ fuel =>
      simp only [gswLoop, BKTree.get_damerau_levenshtein_distance, hget, orPanic,
        ok_bind, hw, Option.getD_some, hsymm]
      rw [if_neg (show ¬(d ≤ 0) by omega), if_pos (show d > 0 by omega),
        Nat.sub_zero, show (d + 0) % 256 + 1 - d = 1 by omega]
      simp only [collectPushes, hl2, orPanic, ok_bind]
      show gswLoop t w 0 ([n].reverse ++ []) acc fuel = .ok (acc ++ [w])
      rw [show ([n].reverse ++ [] : List Nat) = [n] by simp]
      exact ih acc fuel (by omega)

theorem buildFold_spec : ∀ (ws : List Str) (t : BKTree), WF t →
    (∀ w ∈ ws, GoodWord t.max_word_length t.alphabet_length w) →
    t.size + ws.length ≤ t.tree.length →
    ∃ t', ws.foldlM BKTree.add t = .ok t' ∧ WF t' ∧ Extends t t' ∧
      t'.size ≤ t.size + ws.length ∧
      ∀ w ∈ ws, Finds t.alphabet_length t' w 0 := by
  intro ws
  induction ws with
  | nil =>
    intro t hwf _ _
    exact ⟨t, rfl, hwf, Extends_refl t, by omega, fun w hw => absurd hw (by simp)⟩
  | cons w ws ih =>
    intro t hwf hgood hcap
    obtain ⟨t1, hadd, hwf1, hext1, hsz1, hfind1⟩ :=
      add_spec t w hwf (hgood w (by simp)) (by simp at hcap; omega)
    have hgood1 : ∀ v ∈ ws, GoodWord t1.max_word_length t1.alphabet_length v := by
      intro v hv
      rw [hext1.1, hext1.2.1]
      exact hgood v (by simp [hv])
    have hcap1 : t1.size + ws.length ≤ t1.tree.length := by
      rw [hext1.2.2.1]
      simp only [List.length_cons] at hcap
      omega
    obtain ⟨t', hrun, hwf', hext', hsz', hfind'⟩ := ih t1 hwf1 hgood1 hcap1
    refine ⟨t', ?_, hwf', Extends_trans t t1 t' hext1 hext', ?_, ?_⟩
    · rw [List.foldlM_cons, hadd, ok_bind]
      exact hrun
    · simp only [List.length_cons]
      omega
    · intro v hv
      rcases List.mem_cons.mp hv with hv | hv
      · subst hv
        exact Finds_mono t.alphabet_length t1 t' v hext' 0 hfind1
      · have := hfind' v hv
        rw [hext1.2.1] at this
        exact this

theorem buildTree_spec (L alen : Nat) (ws : List Str)
    (hgood : ∀ w ∈ ws, GoodWord L alen w) :
    ∃ t, buildTree L alen ws = .ok t ∧ WF t ∧
      t.max_word_length = L ∧ t.alphabet_length = alen ∧
      t.tree.length = ws.length ∧ t.size ≤ ws.length ∧
      ∀ w ∈ ws, Finds alen t w 0 := by
  obtain ⟨t, hrun, hwf, hext, hsz, hfind⟩ :=
    buildFold_spec ws (BKTree.new L alen ws.length) (WF_new L alen ws.length)
      (fun w hw => hgood w hw) (by simp [BKTree.new])
  have hL : t.max_word_length = L := hext.1
  have halen : t.alphabet_length = alen := hext.2.1
  have hlen : t.tree.length = ws.length := by
    rw [hext.2.2.1]
    simp [BKTree.new]
  refine ⟨t, hrun, hwf, hL, halen, hlen, ?_, fun w hw => hfind w hw⟩
  have := hsz
  simp only [BKTree.new] at this
  omega

/-! ### Claim C1 -/

/-- Claim C1, counterexample: the child arrays have `max_word_length + 1`
slots (source line 21), not the claimed provably sufficient `2 * L + 1`,
and `get_similar_words` reads child slots up to `distance + tolerance`,
so a query at distance `L` from the stored word with any positive
tolerance reads out of range and the program panics instead of failing
fast at construction time: on the tree built from the single word
"hello" with `max_word_length = 5`, `get_similar_words("a", 1)` panics
with an index-out-of-bounds. -/
theorem C1_counterexample :
    (buildTree 5 255 [[104, 101, 108, 108, 111]]).bind
      (fun t => t.get_similar_words [97] 1) =
    .error "panic: index out of bounds" := by
  set_option maxRecDepth 100000 in decide

/-- Claim C1, amended: the child-array width `max_word_length + 1` is
sufficient for `add` and `does_contain` (though not for
`get_similar_words`): the distance between two in-alphabet strings is at
most the longer length, hence at most `max_word_length` for capacity-
respecting words, so building a tree from nonempty in-alphabet words of
length at most `max_word_length` succeeds and `does_contain` on any
in-alphabet query within the length bound returns without any
out-of-range access. -/
theorem C1_amended (L alen : Nat) (ws : List Str) (q : Str)
    (hws : ∀ w ∈ ws, GoodWord L alen w) (hne : ws ≠ [])
    (hq : AsciiIn alen q) (hqL : q.length ≤ L) :
    (∀ a b : Str, AsciiIn alen a → AsciiIn alen b →
      a.length ≤ L → b.length ≤ L →
      ∃ d, dlDistance alen a b = .ok d ∧ d ≤ L) ∧
    ∃ t, buildTree L alen ws = .ok t ∧ ∃ bb, t.does_contain q = .ok bb := by
  constructor
  · intro a b ha hb haL hbL
    obtain ⟨d, hd, hdle⟩ := dlDistance_le_max alen a b ha hb
    exact ⟨d, hd, by omega⟩
  · obtain ⟨t, hrun, hwf, hL, halen, hlen, hsz, hfind⟩ := buildTree_spec L alen ws hws
    refine ⟨t, hrun, ?_⟩
    have hlen0 : 0 < t.tree.length := by
      rw [hlen]
      exact List.length_pos.mpr hne
    have hq' : AsciiIn t.alphabet_length q := by rw [halen]; exact hq
    have hqL' : q.length ≤ t.max_word_length := by rw [hL]; exact hqL
    rcases Nat.eq_zero_or_pos t.size with hs0 | hs0
    · exact containsLoop_total t q hwf hq' hqL' (t.tree.length + 1) 0
        (Or.inr ⟨hs0, rfl⟩) hlen0 (by omega)
    · exact containsLoop_total t q hwf hq' hqL' (t.tree.length + 1) 0
        (Or.inl hs0) hlen0 (by omega)

/-- Witness for the amended claim C1 at the tree built from "hello" with
`max_word_length = 5` and the query "a". -/
theorem C1_amended_witness :
    (∀ a b : Str, AsciiIn 255 a → AsciiIn 255 b →
      a.length ≤ 5 → b.length ≤ 5 →
      ∃ d, dlDistance 255 a b = .ok d ∧ d ≤ 5) ∧
    ∃ t, buildTree 5 255 [[104, 101, 108, 108, 111]] = .ok t ∧
      ∃ bb, t.does_contain [97] = .ok bb :=
  C1_amended 5 255 [[104, 101, 108, 108, 111]] [97]
    (by decide) (by decide) (by decide) (by decide)

/-! ### Claim C2 -/

/-- Claim C2, counterexample: `get_similar_words` is not total, so it
cannot return "exactly the set of inserted words within tolerance" for
every query word and tolerance: on the tree built from the single word
"hello" (`max_word_length = 5`), the query `("ab", 2)` reads a child
slot beyond the array width `max_word_length + 1` and panics instead of
returning the empty set. -/
theorem C2_counterexample :
    (buildTree 5 255 [[104, 101, 108, 108, 111]]).bind
      (fun t => t.get_similar_words [97, 98] 2) =
    .error "panic: index out of bounds" := by
  set_option maxRecDepth 100000 in decide

/-- Claim C2, amended: the claim's concrete scenario does hold.  On the
tree built from {"hello", "world", "hella", "hell", "help"},
`get_similar_words("hell", 1)` returns exactly the four words
{"hello", "help", "hella", "hell"} — each at distance at most 1 from
"hell" — and excludes "world", which is at distance 4; but totality for
every query word and tolerance fails (see the counterexample), so the
exact-set guarantee only holds when the traversal stays inside the
child arrays. -/
theorem C2_amended :
    (buildTree 5 120
        [[104, 101, 108, 108, 111], [119, 111, 114, 108, 100],
         [104, 101, 108, 108, 97], [104, 101, 108, 108],
         [104, 101, 108, 112]]).bind
      (fun t => t.get_similar_words [104, 101, 108, 108] 1) =
    .ok [[104, 101, 108, 108, 111], [104, 101, 108, 112],
         [104, 101, 108, 108, 97], [104, 101, 108, 108]] ∧
    dlDistance 120 [104, 101, 108, 108] [104, 101, 108, 108, 111] = .ok 1 ∧
    dlDistance 120 [104, 101, 108, 108] [119, 111, 114, 108, 100] = .ok 4 ∧
    dlDistance 120 [104, 101, 108, 108] [104, 101, 108, 108, 97] = .ok 1 ∧
    dlDistance 120 [104, 101, 108, 108] [104, 101, 108, 108] = .ok 0 ∧
    dlDistance 120 [104, 101, 108, 108] [104, 101, 108, 112] = .ok 1 := by
  set_option maxRecDepth 1000000 in decide

/-! ### Claim C8 -/

/-- Claim C8, counterexample: inserting the empty string is silently
dropped — `add` compares it against the absent-root placeholder (also
the empty string), sees distance 0 and returns without storing anything
— so after inserting `""` and then `"a"` into a fresh tree,
`does_contain("")` returns `Ok(false)` although `""` was inserted and
is within the tree's capacity. -/
theorem C8_counterexample :
    (buildTree 1 255 [[], [97]]).bind (fun t => t.does_contain []) =
    .ok false := by
  set_option maxRecDepth 100000 in decide

/-- Claim C8, amended: for every vocabulary of nonempty words of ASCII
characters inside the alphabet and of length at most `max_word_length`
(and at most 255), the built tree answers `does_contain(w) = Ok(true)`
for every inserted word `w`, and `get_similar_words(w, 0)` returns a
result containing `w` (in fact exactly `[w]`). -/
theorem C8_amended (L alen : Nat) (ws : List Str) (w : Str)
    (hws : ∀ v ∈ ws, GoodWord L alen v) (hw : w ∈ ws) :
    ∃ t, buildTree L alen ws = .ok t ∧ t.does_contain w = .ok true ∧
      t.get_similar_words w 0 = .ok [w] := by
  obtain ⟨t, hrun, hwf, hL, halen, hlen, hsz, hfind⟩ := buildTree_spec L alen ws hws
  have hfw : Finds t.alphabet_length t w 0 := by rw [halen]; exact hfind w hw
  have hgw : GoodWord t.max_word_length t.alphabet_length w := by
    rw [hL, halen]; exact hws w hw
  refine ⟨t, hrun, ?_, ?_⟩
  · exact containsLoop_finds t w hwf 0 hfw (t.tree.length + 1) (by omega)
  · exact gswLoop_finds t w hwf hgw 0 hfw [] (t.tree.length + 1) (by omega)

/-- Witness for the amended claim C8 on the vocabulary
{"hello", "hell"} with `max_word_length = 5` and the inserted word
"hell". -/
theorem C8_amended_witness :
    ∃ t, buildTree 5 255 [[104, 101, 108, 108, 111], [104, 101, 108, 108]] = .ok t ∧
      t.does_contain [104, 101, 108, 108] = .ok true ∧
      t.get_similar_words [104, 101, 108, 108] 0 = .ok [[104, 101, 108, 108]] :=
  C8_amended 5 255 [[104, 101, 108, 108, 111], [104, 101, 108, 108]]
    [104, 101, 108, 108] (by decide) (by decide)

theorem collectPushes_replicate_none (k : Nat) :
    ∀ count i, i + count ≤ k →
      collectPushes (List.replicate k (none : Option Nat)) i count = .ok [] := by
  intro count
  induction count with
  | zero => intro i _; rfl
  | succ c ih =>
    intro i hi
    have hilt : i < (List.replicate k (none : Option Nat)).length := by
      simp only [List.length_replicate]
      omega
    have hget : (List.replicate k (none : Option Nat)).get? i = some none := by
      rw [List.get?_eq_get hilt]
      simp
    simp only [collectPushes, hget, orPanic, ok_bind, ih (i + 1) (by omega)]

/-! ### Claim C10 -/

/-- Claim C10, counterexample: the half of the claim about
`get_similar_words` fails — the window `start..=distance+tolerance` is
not clamped to the child-array width, so on a never-inserted tree
(`BKTree::new(2, 255, 1)`, size 0) the query `("", 3)` with
`len("") = 0 <= 3 = tolerance` panics with an index-out-of-bounds
instead of returning a result containing the empty string.
(`does_contain("")` does return `Ok(true)` on that tree, as the other
half of the claim says.) -/
theorem C10_counterexample :
    (BKTree.new 2 255 1).get_similar_words [] 3 =
      .error "panic: index out of bounds" ∧
    (BKTree.new 2 255 1).does_contain [] = .ok true := by
  set_option maxRecDepth 100000 in decide

/-- Claim C10, amended: on a tree into which no word has ever been
inserted (fresh `BKTree::new` with at least one preallocated slot) the
absent root behaves as the empty string: `does_contain("")` returns
`Ok(true)` although nothing was inserted, and for every in-alphabet
query word `w` with `len(w) <= tolerance`, `get_similar_words(w,
tolerance)` returns exactly `[""]` — provided the probe window stays
inside the child array and the `u8` range
(`len(w) + tolerance <= min(max_word_length, 255)`); beyond that the
query panics instead (see the counterexample). -/
theorem C10_amended (L alen k tol : Nat) (w : Str)
    (hk : 0 < k) (hw : AsciiIn alen w) (hwtol : w.length ≤ tol)
    (htol : w.length + tol ≤ 255) (htolL : w.length + tol ≤ L) :
    (BKTree.new L alen k).does_contain [] = .ok true ∧
    (BKTree.new L alen k).get_similar_words w tol = .ok [[]] := by
  obtain ⟨k1, rfl⟩ : ∃ k1, k = k1 + 1 := ⟨k - 1, by omega⟩
  have hget : (BKTree.new L alen (k1 + 1)).tree.get? 0 = some (Node.new none L) := rfl
  have hnil : AsciiIn alen ([] : Str) := by intro c hc; simp at hc
  have hd0 : dlDistance alen [] [] = .ok 0 := dlDistance_refl alen [] hnil
  have hdw : dlDistance alen w [] = .ok w.length := by
    rw [dlDistance_nil_right alen w hw, Nat.mod_eq_of_lt (by omega)]
  constructor
  · show containsLoop (BKTree.new L alen (k1 + 1)) [] 0
      ((BKTree.new L alen (k1 + 1)).tree.length + 1) = .ok true
    simp only [containsLoop, hget, orPanic, ok_bind,
      BKTree.get_damerau_levenshtein_distance]
    simp only [BKTree.new, Node.new, Option.getD_none]
    simp only [hd0, ok_bind]
    rfl
  · show gswLoop (BKTree.new L alen (k1 + 1)) w tol [0] []
      ((BKTree.new L alen (k1 + 1)).tree.length + 1) = .ok [[]]
    simp only [gswLoop, hget, orPanic, ok_bind,
      BKTree.get_damerau_levenshtein_distance]
    simp only [BKTree.new, Node.new, Option.getD_none]
    simp only [hdw, ok_bind]
    rw [if_pos hwtol, if_neg (show ¬(w.length > tol) by omega),
      Nat.mod_eq_of_lt (show w.length + tol < 256 by omega)]
    rw [collectPushes_replicate_none (L + 1) (w.length + tol + 1 - 1) 1 (by omega), ok_bind]
    simp only [List.reverse_nil, List.nil_append]
    rfl

/-- Witness for the amended claim C10: the fresh tree
`BKTree::new(5, 255, 3)` and the query `("a", 2)`. -/
theorem C10_amended_witness :
    (BKTree.new 5 255 3).does_contain [] = .ok true ∧
    (BKTree.new 5 255 3).get_similar_words [97] 2 = .ok [[]] :=
  C10_amended 5 255 3 2 [97] (by decide) (by decide) (by decide)
    (by decide) (by decide)
